import Mathlib

/-!
Verification of the inventory-management core of CYBR330-InventoryManagement
(`src/App/New/inventory.py` and `src/App/New/linked_queue.py`).

The Python classes are shallowly embedded as Lean structures and pure
functions.  Mutation of the manager object becomes explicit state passing
(`InventoryManager → InventoryManager × Report`).  Python object identity of
`InventoryItem` instances (the category tree stores *references* to items) is
modelled by an `id : Nat` field playing the role of the object address;
`CategoryNode.items` stores those ids.  Python's `-1` not-found sentinel is
modelled with `Option`, uncaught Python exceptions (`TypeError` from tuple
unpacking, `IndexError`, `AttributeError`, `ValueError`) with an explicit
`Report.crash` outcome (for queries, `Except Unit`).  `while` loops become
fuel-based structural recursions; the fuel bounds only the number of
iterations and is always instantiated large enough (lemmas below show the
fuel-exhaustion branches are unreachable at the call sites).
-/

/-- `getE l i` is `l[i]` with a default, used where the Python code indexes a
list after an explicit in-range guard. -/
def getE {α : Type _} [Inhabited α] (l : List α) (i : Nat) : α :=
  l.getD i default

/-- Left/right swap `arr[i], arr[j] = arr[j], arr[i]` of the Python code. -/
def listSwap {α : Type _} [Inhabited α] (l : List α) (i j : Nat) : List α :=
  (l.set i (getE l j)).set j (getE l i)

/-- Python `list.insert(k, x)`: a negative index counts from the end and is
clamped to `0`, an index past the end appends. -/
def pyInsert {α : Type _} (l : List α) (k : Int) (x : α) : List α :=
  let idx : Nat := if k < 0 then (max 0 ((l.length : Int) + k)).toNat else min k.toNat l.length
  l.insertIdx idx x

/-- An inventory item (`InventoryItem`).  `id` models Python object identity,
`price` models the Python float as an exact rational (only comparisons of
exact decimal values occur), `date_added` models the datetime as an abstract
timestamp.  `category_path` is `none` for Python `None` and `some l` for the
list `l` (the two are distinguishable in the source via `== []` checks and
truthiness). -/
structure InventoryItem where
  id : Nat
  name : String
  quantity : Int
  price : ℚ
  category_path : Option (List String)
  date_added : Nat
deriving Repr, DecidableEq

instance : Inhabited InventoryItem := ⟨⟨0, "", 0, 0, none, 0⟩⟩

/-- Python truthiness of a `category_path` value: `None` and `[]` are falsy. -/
def pathTruthy : Option (List String) → Bool
  | none => false
  | some [] => false
  | some (_ :: _) => true

/-- Python `s.lower()` composed with Python's string comparison: strings
compare as sequences of code points, so the lowered key is represented
directly as its character list (`Char.toLower`, like `str.lower`, maps the
uppercase letters used here). -/
def pyLower (s : String) : List Char :=
  s.data.map Char.toLower

/-- Python `s.lower()` as a string (used for the sort-key argument). -/
def pyLowerStr (s : String) : String :=
  ⟨s.data.map Char.toLower⟩

/-- A node of the category tree (`CategoryNode`): a name, ordered children and
the list of (ids of) items classified directly at this node. -/
inductive CategoryNode : Type where
  | mk (name : String) (children : List CategoryNode) (items : List Nat) : CategoryNode
deriving Repr

def CategoryNode.name : CategoryNode → String
  | .mk n _ _ => n

def CategoryNode.children : CategoryNode → List CategoryNode
  | .mk _ c _ => c

def CategoryNode.items : CategoryNode → List Nat
  | .mk _ _ i => i

mutual
/-- Number of nodes in a category subtree (used as loop fuel for the
breadth-first traversal, which visits each subtree node exactly once). -/
def treeSize : CategoryNode → Nat
  | .mk _ children _ => 1 + forestSize children

def forestSize : List CategoryNode → Nat
  | [] => 0
  | c :: cs => treeSize c + forestSize cs
end

/-- The FIFO queue of `linked_queue.py`, abstracted by the sequence of its
elements (head of the list = head of the linked list). -/
structure LinkedQueue (α : Type _) where
  elems : List α

def LinkedQueue.empty {α : Type _} : LinkedQueue α := ⟨[]⟩

def LinkedQueue.is_empty {α : Type _} (q : LinkedQueue α) : Bool :=
  q.elems.isEmpty

def LinkedQueue.enqueue {α : Type _} (q : LinkedQueue α) (e : α) : LinkedQueue α :=
  ⟨q.elems ++ [e]⟩

/-- `dequeue` returns the front element and the remaining queue; the call
sites in `inventory.py` only dequeue after an `is_empty` check. -/
def LinkedQueue.dequeue {α : Type _} (q : LinkedQueue α) : Option α × LinkedQueue α :=
  (q.elems.head?, ⟨q.elems.tail⟩)

/-- The manager state (`InventoryManager.__init__`). -/
structure InventoryManager where
  items : List InventoryItem
  items_sorted : List (String × Nat)
  sorted_by : Option String
  category_tree : CategoryNode
deriving Repr

def emptyManager : InventoryManager :=
  { items := []
    items_sorted := []
    sorted_by := none
    category_tree := .mk "ROOT" [] [] }

/-- Outcome of a manager operation, abstracting the printed status messages.
`crash` stands for an uncaught Python exception escaping the method. -/
inductive Report where
  | success
  | duplicateItem
  | itemNotFound
  | categoryNotFound
  | parentNotFound
  | duplicateCategory
  | invalidSortKey
  | emptyCategoryPath
  | crash
deriving Repr, DecidableEq

/-- Case-insensitive sibling-name comparison used throughout `inventory.py`. -/
def nameMatches (childName seg : String) : Bool :=
  pyLower childName == pyLower seg

/-- The walk of `find_category_node` over the path segments: at each step the
first child whose name matches case-insensitively is entered. -/
def findSeg : CategoryNode → List String → Option CategoryNode
  | node, [] => some node
  | node, seg :: rest =>
    match node.children.find? (fun c => nameMatches c.name seg) with
    | none => none
    | some child => findSeg child rest

/-- `find_category_node(path)`: a falsy path (`None` or `[]`) returns the
root. -/
def find_category_node (st : InventoryManager) (path : Option (List String)) :
    Option CategoryNode :=
  if pathTruthy path then findSeg st.category_tree (path.getD [])
  else some st.category_tree

/-- Apply `g` to the first child whose name matches `seg` (the same choice
`find_category_node` makes); `none` if no child matches or `g` fails.  This
realises, functionally, the Python pattern of mutating the node object
returned by `find_category_node`. -/
def updFirstChild (seg : String) (g : CategoryNode → Option CategoryNode) :
    List CategoryNode → Option (List CategoryNode)
  | [] => none
  | c :: cs =>
    if nameMatches c.name seg then (g c).map (· :: cs)
    else (updFirstChild seg g cs).map (c :: ·)

/-- `node.items.append(item)` performed on the node reached by `path`. -/
def appendIdAt (id : Nat) : List String → CategoryNode → Option CategoryNode
  | [], node => some (.mk node.name node.children (node.items ++ [id]))
  | seg :: rest, node =>
    (updFirstChild seg (appendIdAt id rest) node.children).map
      (fun cs => .mk node.name cs node.items)

/-- `node.items.remove(item)` performed on the node reached by `path`;
`none` models the `ValueError` when the item is absent from that node's list
(or the `AttributeError` when the path does not resolve). -/
def removeIdAt (id : Nat) : List String → CategoryNode → Option CategoryNode
  | [], node =>
    if id ∈ node.items then some (.mk node.name node.children (node.items.erase id))
    else none
  | seg :: rest, node =>
    (updFirstChild seg (removeIdAt id rest) node.children).map
      (fun cs => .mk node.name cs node.items)

/-- `parent_node.children.append(CategoryNode(name))` on the node reached by
`path`. -/
def addChildAt (newName : String) : List String → CategoryNode → Option CategoryNode
  | [], node => some (.mk node.name (node.children ++ [.mk newName [] []]) node.items)
  | seg :: rest, node =>
    (updFirstChild seg (addChildAt newName rest) node.children).map
      (fun cs => .mk node.name cs node.items)

/-- The loop of `binary_search`.  Python's `left`/`right` pair is represented
as `left`/`rp1` with `rp1 = right + 1`, keeping the arithmetic in `Nat`
(Python's `right = -1` corresponds to `rp1 = 0`); the guard `left <= right`
becomes `left < rp1` and `mid = (left + right) // 2` becomes
`(left + (rp1 - 1)) / 2`.  A hit returns the stored position paired with the
probe index `mid` (what Python returns when `sorted_index=True`); `.ok none`
is Python's `-1`.  `.error` marks an out-of-range probe or fuel exhaustion,
both shown unreachable below. -/
def binarySearchGo (ls : List (String × Nat)) (target : List Char) :
    Nat → Nat → Nat → Except Unit (Option (Nat × Nat))
  | 0, _, _ => .error ()
  | fuel + 1, left, rp1 =>
    if left < rp1 then
      let mid := (left + (rp1 - 1)) / 2
      match ls.get? mid with
      | none => .error ()
      | some e =>
        if pyLower e.1 = target then .ok (some (e.2, mid))
        else if pyLower e.1 < target then binarySearchGo ls target fuel (mid + 1) rp1
        else binarySearchGo ls target fuel left mid
    else .ok none

/-- `binary_search(name, True)`: item-store position and `items_sorted`
index. -/
def binary_search_pair (st : InventoryManager) (name : String) :
    Except Unit (Option (Nat × Nat)) :=
  binarySearchGo st.items_sorted (pyLower name) (st.items_sorted.length + 1) 0
    st.items_sorted.length

/-- `binary_search(name)`: just the item-store position. -/
def binary_search (st : InventoryManager) (name : String) : Except Unit (Option Nat) :=
  match binary_search_pair st name with
  | .error e => .error e
  | .ok r => .ok (r.map Prod.fst)

/-- The loop of `binary_insertion`, same interval representation as
`binarySearchGo`.  `none` is Python's `-1` (name already present); otherwise
the final `left` is returned.  The fuel-exhaustion and out-of-range branches
return the current `left`; they are unreachable at the call sites. -/
def binaryInsertionGo (ls : List (String × Nat)) (target : List Char) :
    Nat → Nat → Nat → Option Nat
  | 0, left, _ => some left
  | fuel + 1, left, rp1 =>
    if left < rp1 then
      let mid := (left + (rp1 - 1)) / 2
      match ls.get? mid with
      | none => some left
      | some e =>
        if pyLower e.1 = target then none
        else if pyLower e.1 < target then binaryInsertionGo ls target fuel (mid + 1) rp1
        else binaryInsertionGo ls target fuel left mid
    else some left

/-- `binary_insertion(name)`. -/
def binary_insertion (st : InventoryManager) (name : String) : Option Nat :=
  binaryInsertionGo st.items_sorted (pyLower name) (st.items_sorted.length + 1) 0
    st.items_sorted.length

/-- `get_item_by_name(name)`: `binary_search` then `self.items[index]` (the
indexing raises `IndexError` when the stored position is out of range, hence
the `.error`). -/
def get_item_by_name (st : InventoryManager) (name : String) :
    Except Unit (Option InventoryItem) :=
  match binary_search st name with
  | .error e => .error e
  | .ok none => .ok none
  | .ok (some index) =>
    match st.items.get? index with
    | none => .error ()
    | some it => .ok (some it)

/-- `add_item(item)`. -/
def add_item (st : InventoryManager) (item : InventoryItem) :
    InventoryManager × Report :=
  match get_item_by_name st item.name with
  | .error _ => (st, .crash)
  | .ok (some _) => (st, .duplicateItem)
  | .ok none =>
    let category_node := find_category_node st item.category_path
    if pathTruthy item.category_path && category_node.isNone then
      (st, .categoryNotFound)
    else
      let items1 := st.items ++ [item]
      let treeRes : Option CategoryNode :=
        if pathTruthy item.category_path then
          appendIdAt item.id (item.category_path.getD []) st.category_tree
        else some st.category_tree
      match treeRes with
      | none => ({ st with items := items1 }, .crash)
      | some tree1 =>
        let entry : String × Nat := (item.name, items1.length - 1)
        let sorted1 :=
          match binary_insertion st item.name with
          | some k => st.items_sorted.insertIdx (min k st.items_sorted.length) entry
          | none =>
            -- Python `insert(-1, ...)`: before the last element (at 0 when empty)
            st.items_sorted.insertIdx (st.items_sorted.length - 1) entry
        ({ st with items := items1, items_sorted := sorted1, category_tree := tree1 },
          .success)

/-- In-place mutation of one `InventoryItem` object, seen through every alias
holding its id. -/
def replaceItemById (items : List InventoryItem) (it : InventoryItem) :
    List InventoryItem :=
  items.map (fun x => if x.id = it.id then it else x)

/-- The quantity update of `edit_item`: applied only when present and
non-negative (a negative value is warned about and skipped). -/
def applyQuantity (item : InventoryItem) : Option Int → InventoryItem
  | some q => if 0 ≤ q then { item with quantity := q } else item
  | none => item

/-- The price update of `edit_item`, same policy as the quantity. -/
def applyPrice (item : InventoryItem) : Option ℚ → InventoryItem
  | some p => if 0 ≤ p then { item with price := p } else item
  | none => item

/-- `item.category_path = new_category_path`. -/
def setCategoryPath (item : InventoryItem) (cp : Option (List String)) :
    InventoryItem :=
  { item with category_path := cp }

/-- `edit_item(name, new_quantity, new_price, new_category_path)`.  The
category branch reproduces the source exactly: it is skipped only when the
argument is the explicit empty list (`not new_category_path == []`), so a
`None` argument falls through, unlinks the item, sets its path to `None` and
appends it to the node `find_category_node(None)` returns — the ROOT.  The
statement right after those mutations,
`updated_fields.append(f"Category -> {' > '.join(new_category_path)}")`,
then raises `TypeError` (`str.join` of `None`), so the `None` case ends in
`.crash` with the mutations applied; only a non-empty list completes with
`.success`. -/
def edit_item (st : InventoryManager) (name : String) (new_quantity : Option Int)
    (new_price : Option ℚ) (new_category_path : Option (List String)) :
    InventoryManager × Report :=
  match get_item_by_name st name with
  | .error _ => (st, .crash)
  | .ok none => (st, .itemNotFound)
  | .ok (some item) =>
    if new_category_path ≠ some [] then
      if pathTruthy new_category_path &&
          (find_category_node st new_category_path).isNone then
        ({ st with
            items := (replaceItemById st.items
              (applyPrice (applyQuantity item new_quantity) new_price)) },
          .categoryNotFound)
      else
        match (if (applyPrice (applyQuantity item new_quantity) new_price).category_path
              ≠ some [] then
            removeIdAt item.id
              (((applyPrice (applyQuantity item new_quantity) new_price).category_path).getD [])
              st.category_tree
          else some st.category_tree) with
        | none =>
          ({ st with
              items := (replaceItemById st.items
                (applyPrice (applyQuantity item new_quantity) new_price)) },
            .crash)
        | some tree1 =>
          match appendIdAt item.id (new_category_path.getD []) tree1 with
          | none =>
            ({ st with
                items := (replaceItemById st.items
                  (setCategoryPath (applyPrice (applyQuantity item new_quantity) new_price)
                    new_category_path))
                category_tree := tree1 },
              .crash)
          | some tree2 =>
            ({ st with
                items := (replaceItemById st.items
                  (setCategoryPath (applyPrice (applyQuantity item new_quantity) new_price)
                    new_category_path))
                category_tree := tree2 },
              if new_category_path.isNone then .crash else .success)
    else
      ({ st with
          items := (replaceItemById st.items
            (applyPrice (applyQuantity item new_quantity) new_price)) },
        .success)

/-- `remove_item(name)`.  When the item is absent, `binary_search` returns the
plain integer `-1` and the tuple unpacking
`index, sorted_index = self.binary_search(name, True)` raises `TypeError`:
the `ItemNotFound` branch below it is unreachable, modelled as `.crash` with
the state untouched.  The source's `if index == -1` guard can never fire
because stored positions are natural numbers. -/
def remove_item (st : InventoryManager) (name : String) :
    InventoryManager × Report :=
  match binary_search_pair st name with
  | .error _ => (st, .crash)
  | .ok none => (st, .crash)
  | .ok (some (index, sorted_index)) =>
    if index < st.items.length then
      let items1 := st.items.eraseIdx index
      let sorted1 := (st.items_sorted.eraseIdx sorted_index).map
        (fun e => if index < e.2 then (e.1, e.2 - 1) else e)
      ({ st with items := items1, items_sorted := sorted1 }, .success)
    else (st, .crash)

/-- `add_category(path)`. -/
def add_category (st : InventoryManager) (path : List String) :
    InventoryManager × Report :=
  match path.getLast? with
  | none => (st, .emptyCategoryPath)
  | some new_category_name =>
    match findSeg st.category_tree path.dropLast with
    | none => (st, .parentNotFound)
    | some parent_node =>
      if parent_node.children.any (fun c => nameMatches c.name new_category_name) then
        (st, .duplicateCategory)
      else
        match addChildAt new_category_name path.dropLast st.category_tree with
        | none => (st, .crash)
        | some tree1 => ({ st with category_tree := tree1 }, .success)

/-- The `largest` computed by one pass of `heapify(arr, n, i, key_func)`:
start from `i`, replace by the left child if it is in range and strictly
larger, then by the right child if it is in range and strictly larger than
the current largest. -/
def heapifyLargest {β α : Type _} [Inhabited β] [LinearOrder α] (f : β → α)
    (arr : List β) (n i : Nat) : Nat :=
  if 2 * i + 2 < n ∧ f (getE arr (2 * i + 2)) >
      f (getE arr (if 2 * i + 1 < n ∧ f (getE arr (2 * i + 1)) > f (getE arr i)
        then 2 * i + 1 else i)) then
    2 * i + 2
  else
    (if 2 * i + 1 < n ∧ f (getE arr (2 * i + 1)) > f (getE arr i)
      then 2 * i + 1 else i)

/-- `heapify(arr, n, i, key_func)` — sift-down on the first `n` positions.
The recursion in the source is on the child index `largest > i`; a fuel of
`n` more than covers the chain, and the fuel-exhaustion branch (returning the
array unchanged) is unreachable at the call sites. -/
def heapify {β α : Type _} [Inhabited β] [LinearOrder α] (f : β → α) :
    List β → Nat → Nat → Nat → List β
  | arr, _, 0, _ => arr
  | arr, n, fuel + 1, i =>
    if heapifyLargest f arr n i ≠ i then
      heapify f (listSwap arr i (heapifyLargest f arr n i)) n fuel
        (heapifyLargest f arr n i)
    else arr

/-- The max-heap build phase of `heap_sort`: `for i in range(n//2 - 1, -1, -1):
heapify(arr, n, i)`; the counter `k` runs through `i + 1`. -/
def heapSortBuild {β α : Type _} [Inhabited β] [LinearOrder α] (f : β → α) :
    List β → Nat → Nat → List β
  | arr, _, 0 => arr
  | arr, n, k + 1 => heapSortBuild f (heapify f arr n n k) n k

/-- The extraction phase of `heap_sort`: `for i in range(n - 1, 0, -1):` swap
root and position `i`, then sift-down over the reduced heap of size `i`. -/
def heapSortExtract {β α : Type _} [Inhabited β] [LinearOrder α] (f : β → α) :
    List β → Nat → List β
  | arr, 0 => arr
  | arr, k + 1 =>
    heapSortExtract f (heapify f (listSwap arr (k + 1) 0) (k + 1) (k + 1) 0) k

/-- `heap_sort(arr, key_func)`. -/
def heap_sort {β α : Type _} [Inhabited β] [LinearOrder α] (f : β → α)
    (arr : List β) : List β :=
  heapSortExtract f (heapSortBuild f arr arr.length (arr.length / 2)) (arr.length - 1)

/-- Sort key `'name'`: `item.name.lower()`. -/
def nameKey (it : InventoryItem) : List Char := pyLower it.name

/-- Sort key `'date'`: `item.date_added`. -/
def dateKey (it : InventoryItem) : Nat := it.date_added

/-- Sort key `'quantity'`: `item.quantity`. -/
def quantityKey (it : InventoryItem) : Int := it.quantity

/-- Sort key `'price'`: `item.price`. -/
def priceKey (it : InventoryItem) : ℚ := it.price

/-- Sort key `'category'`: `' > '.join(item.category_path).lower()`.  Total
only on items whose path is an actual list; `sort_inventory` flags the `None`
case as a crash (Python's `join` raises `TypeError` there). -/
def categoryKey (it : InventoryItem) : List Char :=
  pyLower (" > ".intercalate ((it.category_path).getD []))

/-- The fast branch of `reset_sorted_list`:
`for i in range(len(self.items_sorted)): self.items_sorted[i][1] = i`. -/
def resetNamesGo : List (String × Nat) → Nat → List (String × Nat)
  | [], _ => []
  | e :: rest, i => (e.1, i) :: resetNamesGo rest (i + 1)

/-- One assignment `self.items_sorted[sorted_index][1] = index` with a Python
index: `none` stands for the `-1` a failed `binary_search` returns (Python
then writes to the *last* entry), an out-of-range index is an `IndexError`
(`none` result). -/
def setEntryPos (ls : List (String × Nat)) (k : Option Nat) (v : Nat) :
    Option (List (String × Nat)) :=
  match k with
  | none =>
    match ls.length with
    | 0 => none
    | m + 1 => some (ls.set m ((getE ls m).1, v))
  | some p =>
    if p < ls.length then some (ls.set p ((getE ls p).1, v)) else none

/-- The generic branch of `reset_sorted_list`: for each item in store order,
`binary_search` its name over the current entries and overwrite the entry at
the *position the search returned* (the source uses that stored position,
not the index of the matching entry).  Returns the entries at the point of a
crash together with a crash flag. -/
def resetGo : List InventoryItem → Nat → List (String × Nat) →
    List (String × Nat) × Bool
  | [], _, ls => (ls, false)
  | it :: rest, index, ls =>
    match binarySearchGo ls (pyLower it.name) (ls.length + 1) 0 ls.length with
    | .error _ => (ls, true)
    | .ok r =>
      match setEntryPos ls (r.map Prod.fst) index with
      | none => (ls, true)
      | some ls1 => resetGo rest (index + 1) ls1

/-- `reset_sorted_list()`; the boolean flags an uncaught exception inside the
generic loop. -/
def reset_sorted_list (st : InventoryManager) : InventoryManager × Bool :=
  if st.sorted_by = some "name" then
    ({ st with items_sorted := resetNamesGo st.items_sorted 0 }, false)
  else
    let r := resetGo st.items 0 st.items_sorted
    ({ st with items_sorted := r.1 }, r.2)

def validSortKeys : List String := ["name", "date", "quantity", "price", "category"]

/-- `sort_inventory(key)`.  Note that `self.sorted_by = key` is assigned
*before* the key is validated, so a failed call still overwrites the
marker.  The `'category'` key function `' > '.join(item.category_path).lower()`
raises `TypeError` when the path is `None`; `heapify` applies the key
function to every element whenever the list has at least two items (every
position is probed during the build phase), and applies it to none
otherwise, so the crash condition is exactly
`2 ≤ length ∧ some path is None`.  The crash aborts `heap_sort` mid-way
(leaving some permutation of the items); we keep the pre-sort items and
flag the crash. -/
def sort_inventory (st : InventoryManager) (key : String) :
    InventoryManager × Report :=
  let key1 := pyLowerStr key
  let st1 := { st with sorted_by := some key1 }
  if key1 ∉ validSortKeys then (st1, .invalidSortKey)
  else if key1 = "category" && (st.items.any fun it => it.category_path.isNone)
      && decide (2 ≤ st.items.length) then
    (st1, .crash)
  else
    let items1 :=
      if key1 = "name" then heap_sort nameKey st.items
      else if key1 = "date" then heap_sort dateKey st.items
      else if key1 = "quantity" then heap_sort quantityKey st.items
      else if key1 = "price" then heap_sort priceKey st.items
      else heap_sort categoryKey st.items
    let st2 := { st1 with items := items1 }
    let r := reset_sorted_list st2
    (r.1, if r.2 then .crash else .success)

/-- The breadth-first loop of `display_inventory`: collect the current node's
item references, enqueue its children, stop when the queue is empty.  Each
subtree node is dequeued exactly once, so `treeSize` of the start node is
enough fuel; the fuel-exhaustion and impossible-dequeue branches are
unreachable. -/
def displayGo : Nat → CategoryNode → LinkedQueue CategoryNode → List Nat →
    Except Unit (List Nat)
  | 0, _, _, _ => .error ()
  | fuel + 1, current_node, q, acc =>
    let acc1 := acc ++ current_node.items
    let q1 := current_node.children.foldl (fun qq c => qq.enqueue c) q
    if q1.is_empty then .ok acc1
    else
      match q1.dequeue with
      | (some next, q2) => displayGo fuel next q2 acc1
      | (none, _) => .error ()

/-- `display_inventory(filter_path)` restricted to what it collects: the ids
of the displayed items.  With a truthy filter the loop starts from
`find_category_node(filter_path)` — which is `None` when the path does not
resolve, so the first `current_node.items` access raises `AttributeError`
(`.error`).  Without a filter it shows `self.items`. -/
def display_inventory (st : InventoryManager) (filter_path : Option (List String)) :
    Except Unit (List Nat) :=
  if pathTruthy filter_path then
    match find_category_node st filter_path with
    | none => .error ()
    | some node => displayGo (treeSize node) node LinkedQueue.empty []
  else .ok (st.items.map (fun it => it.id))

/-- The dictionary `InventoryItem.to_dict` produces.  `date_added` is
abstracted like the item field itself: Python's
`fromisoformat(isoformat(d))` round-trips a datetime exactly. -/
structure SavedItem where
  name : String
  quantity : Int
  price : ℚ
  date_added : Nat
  category_path : Option (List String)
deriving Repr, DecidableEq

/-- The dictionary `CategoryNode.to_dict` produces: names and child order
only, no items. -/
inductive CatDict : Type where
  | mk (name : String) (children : List CatDict) : CatDict
deriving Repr

mutual
/-- `CategoryNode.to_dict`. -/
def toDictTree : CategoryNode → CatDict
  | .mk n children _ => .mk n (toDictForest children)

def toDictForest : List CategoryNode → List CatDict
  | [] => []
  | c :: cs => toDictTree c :: toDictForest cs
end

mutual
/-- `CategoryNode.from_dict`: rebuilds the node structure with empty `items`
lists. -/
def fromDictTree : CatDict → CategoryNode
  | .mk n children => .mk n (fromDictForest children) []

def fromDictForest : List CatDict → List CategoryNode
  | [] => []
  | d :: ds => fromDictTree d :: fromDictForest ds
end

/-- The JSON object written by `save_inventory` / read by `load_inventory`. -/
structure SaveData where
  items : List SavedItem
  categories : CatDict

def itemToDict (it : InventoryItem) : SavedItem :=
  { name := it.name, quantity := it.quantity, price := it.price,
    date_added := it.date_added, category_path := it.category_path }

/-- `save_inventory()` (minus the file I/O). -/
def save_inventory (st : InventoryManager) : SaveData :=
  { items := st.items.map itemToDict, categories := toDictTree st.category_tree }

/-- The item loop of `load_inventory`: construct each item — the
`InventoryItem` constructor rejects an empty name or negative
quantity/price, and that `ValueError` (like the `AttributeError` from
linking an unresolvable path) is caught by the blanket `except`, ending the
load with the state built so far — insert its entry into `items_sorted`,
and link it into the rebuilt tree.  Fresh object identities are the load
positions.  Returns the (possibly partial) state and a success flag. -/
def loadItemsGo : List SavedItem → Nat → InventoryManager → InventoryManager × Bool
  | [], _, st => (st, true)
  | d :: rest, index, st =>
    if d.name = "" || d.quantity < 0 || d.price < 0 then (st, false)
    else
      let new_item : InventoryItem :=
        { id := index, name := d.name, quantity := d.quantity, price := d.price,
          category_path := d.category_path, date_added := d.date_added }
      let items1 := st.items ++ [new_item]
      let sorted1 :=
        match binary_insertion st new_item.name with
        | some k => st.items_sorted.insertIdx (min k st.items_sorted.length)
            (new_item.name, index)
        | none => st.items_sorted.insertIdx (st.items_sorted.length - 1)
            (new_item.name, index)
      let st1 := { st with items := items1, items_sorted := sorted1 }
      if pathTruthy new_item.category_path then
        match appendIdAt new_item.id (new_item.category_path.getD [])
            st1.category_tree with
        | none => (st1, false)
        | some tree1 => loadItemsGo rest (index + 1) { st1 with category_tree := tree1 }
      else loadItemsGo rest (index + 1) st1

/-- `load_inventory(data)`: clear the item store, rebuild the category tree
from the saved dictionary, then run the item loop.  (`items_sorted` is *not*
cleared by the source; on the fresh manager of the round-trip claim it is
empty anyway.) -/
def load_inventory (st : InventoryManager) (data : SaveData) :
    InventoryManager × Bool :=
  let st1 := { st with items := [] }
  let st2 := { st1 with category_tree := fromDictTree data.categories }
  loadItemsGo data.items 0 st2

/-! ### Basic lemmas about the list helpers -/

theorem getE_eq_getElem {α : Type _} [Inhabited α] (l : List α) {i : Nat}
    (h : i < l.length) : getE l i = l[i] :=
  List.getD_eq_getElem l default h

theorem get?_eq_some_getE {α : Type _} [Inhabited α] (l : List α) {i : Nat}
    (h : i < l.length) : l.get? i = some (getE l i) := by
  rw [List.get?_eq_getElem?, List.getElem?_eq_getElem h, getE_eq_getElem l h]

/-! ### Correctness of `binary_search` and `binary_insertion` -/

/-- The lowered name stored at index `j` of an `items_sorted` list. -/
def keyAt (ls : List (String × Nat)) (j : Nat) : List Char :=
  pyLower (getE ls j).1

/-- The entries are strictly sorted by lowered name (the Sorted Index
invariant). -/
def SortedNames (ls : List (String × Nat)) : Prop :=
  List.Pairwise (fun a b : String × Nat => pyLower a.1 < pyLower b.1) ls

theorem sortedNames_lt {ls : List (String × Nat)} (hs : SortedNames ls)
    {i j : Nat} (hij : i < j) (hj : j < ls.length) :
    keyAt ls i < keyAt ls j := by
  have h := List.pairwise_iff_getElem.mp hs i j (lt_trans hij hj) hj hij
  simpa [keyAt, getE_eq_getElem _ (lt_trans hij hj), getE_eq_getElem _ hj] using h

/-- Unfolding equation for one iteration of the `binary_search` loop when the
guard holds and the probe is in range. -/
theorem binarySearchGo_succ (ls : List (String × Nat)) (target : List Char)
    (fuel left rp1 : Nat) (hlr : left < rp1)
    (hmid : (left + (rp1 - 1)) / 2 < ls.length) :
    binarySearchGo ls target (fuel + 1) left rp1 =
      (if pyLower (getE ls ((left + (rp1 - 1)) / 2)).1 = target then
        .ok (some ((getE ls ((left + (rp1 - 1)) / 2)).2, (left + (rp1 - 1)) / 2))
      else if pyLower (getE ls ((left + (rp1 - 1)) / 2)).1 < target then
        binarySearchGo ls target fuel ((left + (rp1 - 1)) / 2 + 1) rp1
      else binarySearchGo ls target fuel left ((left + (rp1 - 1)) / 2)) := by
  rw [binarySearchGo, if_pos hlr]
  simp only [get?_eq_some_getE ls hmid]

/-- The loop exits with `-1` (`none`) when the interval is empty. -/
theorem binarySearchGo_stop (ls : List (String × Nat)) (target : List Char)
    (fuel left rp1 : Nat) (hlr : ¬ left < rp1) :
    binarySearchGo ls target (fuel + 1) left rp1 = .ok none := by
  rw [binarySearchGo, if_neg hlr]

/-- Unfolding equation for one iteration of the `binary_insertion` loop. -/
theorem binaryInsertionGo_succ (ls : List (String × Nat)) (target : List Char)
    (fuel left rp1 : Nat) (hlr : left < rp1)
    (hmid : (left + (rp1 - 1)) / 2 < ls.length) :
    binaryInsertionGo ls target (fuel + 1) left rp1 =
      (if pyLower (getE ls ((left + (rp1 - 1)) / 2)).1 = target then none
      else if pyLower (getE ls ((left + (rp1 - 1)) / 2)).1 < target then
        binaryInsertionGo ls target fuel ((left + (rp1 - 1)) / 2 + 1) rp1
      else binaryInsertionGo ls target fuel left ((left + (rp1 - 1)) / 2)) := by
  rw [binaryInsertionGo, if_pos hlr]
  simp only [get?_eq_some_getE ls hmid]

theorem binaryInsertionGo_stop (ls : List (String × Nat)) (target : List Char)
    (fuel left rp1 : Nat) (hlr : ¬ left < rp1) :
    binaryInsertionGo ls target (fuel + 1) left rp1 = some left := by
  rw [binaryInsertionGo, if_neg hlr]

/-- `binary_search`'s loop only probes in range and terminates within its
fuel: the result is always `.ok`. -/
theorem binarySearchGo_ok (ls : List (String × Nat)) (target : List Char) :
    ∀ fuel left rp1, rp1 ≤ ls.length → rp1 - left < fuel →
      ∃ r, binarySearchGo ls target fuel left rp1 = .ok r := by
  intro fuel
  induction fuel with
  | zero => intro left rp1 _ h2; omega
  | succ fuel ih =>
    intro left rp1 h1 h2
    by_cases hlr : left < rp1
    · have hmid : (left + (rp1 - 1)) / 2 < ls.length := by omega
      rw [binarySearchGo_succ ls target fuel left rp1 hlr hmid]
      by_cases he : pyLower (getE ls ((left + (rp1 - 1)) / 2)).1 = target
      · exact ⟨_, by rw [if_pos he]⟩
      · by_cases hlt : pyLower (getE ls ((left + (rp1 - 1)) / 2)).1 < target
        · obtain ⟨r, hr⟩ := ih ((left + (rp1 - 1)) / 2 + 1) rp1 h1 (by omega)
          exact ⟨r, by rw [if_neg he, if_pos hlt]; exact hr⟩
        · obtain ⟨r, hr⟩ := ih left ((left + (rp1 - 1)) / 2) (by omega) (by omega)
          exact ⟨r, by rw [if_neg he, if_neg hlt]; exact hr⟩
    · exact ⟨none, binarySearchGo_stop ls target fuel left rp1 hlr⟩

/-- Soundness of a `binary_search` hit: the probe index is in range, the
entry there has the searched lowered name, and its stored position is what is
returned. -/
theorem binarySearchGo_found (ls : List (String × Nat)) (target : List Char) :
    ∀ fuel left rp1 pos midx, rp1 ≤ ls.length →
      binarySearchGo ls target fuel left rp1 = .ok (some (pos, midx)) →
      midx < ls.length ∧ pyLower (getE ls midx).1 = target ∧
        (getE ls midx).2 = pos := by
  intro fuel
  induction fuel with
  | zero => intro left rp1 pos midx _ h; simp [binarySearchGo] at h
  | succ fuel ih =>
    intro left rp1 pos midx h1 h
    by_cases hlr : left < rp1
    · have hmid : (left + (rp1 - 1)) / 2 < ls.length := by omega
      rw [binarySearchGo_succ ls target fuel left rp1 hlr hmid] at h
      by_cases he : pyLower (getE ls ((left + (rp1 - 1)) / 2)).1 = target
      · rw [if_pos he] at h
        simp only [Except.ok.injEq, Option.some.injEq, Prod.mk.injEq] at h
        obtain ⟨hp, hm⟩ := h
        subst hm
        exact ⟨hmid, he, hp⟩
      · by_cases hlt : pyLower (getE ls ((left + (rp1 - 1)) / 2)).1 < target
        · rw [if_neg he, if_pos hlt] at h
          exact ih _ _ _ _ h1 h
        · rw [if_neg he, if_neg hlt] at h
          exact ih _ _ _ _ (by omega : (left + (rp1 - 1)) / 2 ≤ ls.length) h
    · rw [binarySearchGo_stop ls target fuel left rp1 hlr] at h
      simp at h

/-- Completeness of `binary_search` over a sorted index: an `-1` answer means
no entry carries the searched lowered name.  The two quantified hypotheses
are the standard interval invariants (trivially true at the top-level call
where `left = 0` and `rp1 = length`). -/
theorem binarySearchGo_none (ls : List (String × Nat)) (target : List Char)
    (hs : SortedNames ls) :
    ∀ fuel left rp1, rp1 ≤ ls.length →
      (∀ j, j < left → keyAt ls j < target) →
      (∀ j, rp1 ≤ j → j < ls.length → target < keyAt ls j) →
      binarySearchGo ls target fuel left rp1 = .ok none →
      ∀ j, j < ls.length → keyAt ls j ≠ target := by
  intro fuel
  induction fuel with
  | zero => intro left rp1 _ _ _ h; simp [binarySearchGo] at h
  | succ fuel ih =>
    intro left rp1 h1 hlo hhi h
    by_cases hlr : left < rp1
    · have hmid : (left + (rp1 - 1)) / 2 < ls.length := by omega
      rw [binarySearchGo_succ ls target fuel left rp1 hlr hmid] at h
      by_cases he : pyLower (getE ls ((left + (rp1 - 1)) / 2)).1 = target
      · rw [if_pos he] at h; simp at h
      · by_cases hlt : pyLower (getE ls ((left + (rp1 - 1)) / 2)).1 < target
        · rw [if_neg he, if_pos hlt] at h
          refine ih ((left + (rp1 - 1)) / 2 + 1) rp1 h1 ?_ hhi h
          intro j hj
          rcases Nat.lt_or_ge j left with hjl | hjl
          · exact hlo j hjl
          · rcases Nat.lt_or_ge j ((left + (rp1 - 1)) / 2) with hjm | hjm
            · exact lt_trans (sortedNames_lt hs hjm hmid) hlt
            · have : j = (left + (rp1 - 1)) / 2 := by omega
              subst this
              exact hlt
        · rw [if_neg he, if_neg hlt] at h
          have hgt : target < keyAt ls ((left + (rp1 - 1)) / 2) :=
            lt_of_le_of_ne (not_lt.mp hlt) (fun hc => he hc.symm)
          refine ih left ((left + (rp1 - 1)) / 2) (by omega) hlo ?_ h
          intro j hjm hj
          rcases Nat.lt_or_ge ((left + (rp1 - 1)) / 2) j with hjm' | hjm'
          · exact lt_trans hgt (sortedNames_lt hs hjm' hj)
          · have : j = (left + (rp1 - 1)) / 2 := by omega
            subst this
            exact hgt
    · intro j hj
      rcases Nat.lt_or_ge j left with hjl | hjl
      · exact ne_of_lt (hlo j hjl)
      · exact ne_of_gt (hhi j (by omega) hj)

/-- `binary_insertion` over a sorted index that does not contain the searched
name returns (rather than the `-1` duplicate signal) an insertion point `L`
that separates the strictly smaller keys from the strictly larger ones. -/
theorem binaryInsertionGo_point (ls : List (String × Nat)) (target : List Char)
    (hs : SortedNames ls)
    (habs : ∀ j, j < ls.length → keyAt ls j ≠ target) :
    ∀ fuel left rp1, rp1 ≤ ls.length → rp1 - left < fuel → left ≤ rp1 →
      (∀ j, j < left → keyAt ls j < target) →
      (∀ j, rp1 ≤ j → j < ls.length → target < keyAt ls j) →
      ∃ L, binaryInsertionGo ls target fuel left rp1 = some L ∧ L ≤ ls.length ∧
        (∀ j, j < L → keyAt ls j < target) ∧
        (∀ j, L ≤ j → j < ls.length → target < keyAt ls j) := by
  intro fuel
  induction fuel with
  | zero => intro left rp1 _ h2 _ _ _; omega
  | succ fuel ih =>
    intro left rp1 h1 h2 hler hlo hhi
    by_cases hlr : left < rp1
    · have hmid : (left + (rp1 - 1)) / 2 < ls.length := by omega
      rw [binaryInsertionGo_succ ls target fuel left rp1 hlr hmid]
      have he : pyLower (getE ls ((left + (rp1 - 1)) / 2)).1 ≠ target :=
        habs ((left + (rp1 - 1)) / 2) hmid
      rw [if_neg he]
      by_cases hlt : pyLower (getE ls ((left + (rp1 - 1)) / 2)).1 < target
      · rw [if_pos hlt]
        refine ih ((left + (rp1 - 1)) / 2 + 1) rp1 h1 (by omega) (by omega) ?_ hhi
        intro j hj
        rcases Nat.lt_or_ge j left with hjl | hjl
        · exact hlo j hjl
        · rcases Nat.lt_or_ge j ((left + (rp1 - 1)) / 2) with hjm | hjm
          · exact lt_trans (sortedNames_lt hs hjm hmid) hlt
          · have : j = (left + (rp1 - 1)) / 2 := by omega
            subst this
            exact hlt
      · rw [if_neg hlt]
        have hgt : target < keyAt ls ((left + (rp1 - 1)) / 2) :=
          lt_of_le_of_ne (not_lt.mp hlt) (fun hc => he hc.symm)
        refine ih left ((left + (rp1 - 1)) / 2) (by omega) (by omega) (by omega) hlo ?_
        intro j hjm hj
        rcases Nat.lt_or_ge ((left + (rp1 - 1)) / 2) j with hjm' | hjm'
        · exact lt_trans hgt (sortedNames_lt hs hjm' hj)
        · have : j = (left + (rp1 - 1)) / 2 := by omega
          subst this
          exact hgt
    · rw [binaryInsertionGo_stop ls target fuel left rp1 hlr]
      have : left = rp1 := by omega
      subst this
      exact ⟨left, rfl, by omega, hlo, fun j hj hj' => hhi j hj hj'⟩

theorem binary_search_pair_isOk (st : InventoryManager) (name : String) :
    ∃ r, binary_search_pair st name = .ok r :=
  binarySearchGo_ok st.items_sorted (pyLower name) (st.items_sorted.length + 1) 0
    st.items_sorted.length le_rfl (by omega)

theorem binary_search_pair_found {st : InventoryManager} {name : String}
    {pos midx : Nat} (h : binary_search_pair st name = .ok (some (pos, midx))) :
    midx < st.items_sorted.length ∧
      pyLower (getE st.items_sorted midx).1 = pyLower name ∧
      (getE st.items_sorted midx).2 = pos :=
  binarySearchGo_found st.items_sorted (pyLower name) (st.items_sorted.length + 1) 0
    st.items_sorted.length pos midx le_rfl h

theorem binary_search_pair_none {st : InventoryManager} {name : String}
    (hs : SortedNames st.items_sorted)
    (h : binary_search_pair st name = .ok none) :
    ∀ j, j < st.items_sorted.length → keyAt st.items_sorted j ≠ pyLower name :=
  binarySearchGo_none st.items_sorted (pyLower name) hs (st.items_sorted.length + 1)
    0 st.items_sorted.length le_rfl
    (fun j hj => absurd hj (Nat.not_lt_zero j))
    (fun j hj hj' => absurd (Nat.lt_of_le_of_lt hj hj') (lt_irrefl _)) h

/-- The consistency invariant coupling the Sorted Index to the Item Store:
same length, entries strictly sorted by lowered name, every stored position
in range and naming its item (case-insensitively), and all stored positions
distinct. -/
def IndexInv (st : InventoryManager) : Prop :=
  st.items_sorted.length = st.items.length ∧
  SortedNames st.items_sorted ∧
  (∀ e ∈ st.items_sorted, e.2 < st.items.length ∧
      pyLower (getE st.items e.2).name = pyLower e.1) ∧
  List.Pairwise (fun a b : String × Nat => a.2 ≠ b.2) st.items_sorted

theorem IndexInv_emptyManager : IndexInv emptyManager := by
  refine ⟨rfl, List.Pairwise.nil, ?_, List.Pairwise.nil⟩
  intro e he
  simp [emptyManager] at he

/-- Inserting at a position that separates `R`-smaller from `R`-larger
elements preserves pairwise `R`. -/
theorem pairwise_insertIdx {α : Type _} {R : α → α → Prop} :
    ∀ (l : List α) (L : Nat) (x : α), L ≤ l.length → l.Pairwise R →
      (∀ j (hj : j < l.length), j < L → R l[j] x) →
      (∀ j (hj : j < l.length), L ≤ j → R x l[j]) →
      (l.insertIdx L x).Pairwise R := by
  intro l
  induction l with
  | nil =>
    intro L x hL _ _ _
    have : L = 0 := by simpa using hL
    subst this
    simp
  | cons a t ih =>
    intro L x hL hp hlt hge
    cases L with
    | zero =>
      rw [List.insertIdx_zero]
      refine List.Pairwise.cons ?_ hp
      intro b hb
      obtain ⟨n, hn, rfl⟩ := List.mem_iff_getElem.mp hb
      exact hge n hn (Nat.zero_le n)
    | succ L =>
      rw [List.insertIdx_succ_cons]
      have hL' : L ≤ t.length := by simpa using hL
      refine List.Pairwise.cons ?_ ?_
      · intro b hb
        rcases (List.mem_insertIdx hL').mp hb with rfl | hbt
        · exact hlt 0 (by simp) (Nat.succ_pos L)
        · exact (List.pairwise_cons.mp hp).1 b hbt
      · refine ih L x hL' (List.pairwise_cons.mp hp).2 ?_ ?_
        · intro j hj hjL
          have := hlt (j + 1) (by simpa using Nat.succ_lt_succ hj) (Nat.succ_lt_succ hjL)
          simpa using this
        · intro j hj hjL
          have := hge (j + 1) (by simpa using Nat.succ_lt_succ hj) (Nat.succ_le_succ hjL)
          simpa using this

/-- A duplicate-free list of `n` naturals below `n` contains every natural
below `n`. -/
theorem mem_of_nodup_length {l : List Nat} {n : Nat} (hn : l.Nodup)
    (hlt : ∀ x ∈ l, x < n) (hlen : l.length = n) : ∀ p, p < n → p ∈ l := by
  intro p hp
  have hsub : l.toFinset ⊆ Finset.range n := by
    intro x hx
    rw [List.mem_toFinset] at hx
    exact Finset.mem_range.mpr (hlt x hx)
  have hcard : (Finset.range n).card ≤ l.toFinset.card := by
    rw [Finset.card_range, List.toFinset_card_of_nodup hn, hlen]
  have heq := Finset.eq_of_subset_of_card_le hsub hcard
  have : p ∈ l.toFinset := heq ▸ Finset.mem_range.mpr hp
  exact List.mem_toFinset.mp this

theorem getE_append_last {α : Type _} [Inhabited α] (l : List α) (x : α) :
    getE (l ++ [x]) l.length = x := by
  rw [getE_eq_getElem _ (by simp), List.getElem_append]
  simp

theorem getE_append_left {α : Type _} [Inhabited α] (l : List α) (x : α) {j : Nat}
    (hj : j < l.length) : getE (l ++ [x]) j = getE l j := by
  rw [getE_eq_getElem _ (by simp; omega), List.getElem_append, dif_pos hj,
    getE_eq_getElem _ hj]

/-- Every element of `l.eraseIdx k` is an element of `l` at an index other
than `k`, with the usual index shift. -/
theorem eraseIdx_elem_src {α : Type _} (l : List α) (k j : Nat) (hk : k < l.length)
    (hj : j < (l.eraseIdx k).length) :
    ∃ j', ∃ _ : j' < l.length, j' ≠ k ∧ (l.eraseIdx k)[j] = l[j'] ∧
      ((j < k → j' = j) ∧ (k ≤ j → j' = j + 1)) := by
  have hlen : (l.eraseIdx k).length = l.length - 1 := by
    rw [List.length_eraseIdx, if_pos hk]
  by_cases hjk : j < k
  · refine ⟨j, by omega, by omega, ?_, by omega, by omega⟩
    rw [List.getElem_eraseIdx, dif_pos hjk]
  · refine ⟨j + 1, by omega, by omega, ?_, by omega, by omega⟩
    rw [List.getElem_eraseIdx, dif_neg hjk]

theorem get_item_none_pair {st : InventoryManager} {name : String}
    (h : get_item_by_name st name = .ok none) :
    binary_search_pair st name = .ok none := by
  obtain ⟨r, hr⟩ := binary_search_pair_isOk st name
  cases r with
  | none => exact hr
  | some pm =>
    exfalso
    obtain ⟨pos, midx⟩ := pm
    unfold get_item_by_name binary_search at h
    rw [hr] at h
    simp only [Option.map_some'] at h
    cases hget : st.items.get? pos with
    | none => rw [hget] at h; simp at h
    | some it => rw [hget] at h; simp at h

theorem updFirstChild_isSome {seg : String} {g : CategoryNode → Option CategoryNode} :
    ∀ (cs : List CategoryNode) (c : CategoryNode),
      cs.find? (fun c => nameMatches c.name seg) = some c → (g c).isSome →
      (updFirstChild seg g cs).isSome := by
  intro cs
  induction cs with
  | nil => intro c h _; simp at h
  | cons a t ih =>
    intro c h hg
    by_cases ha : nameMatches a.name seg
    · rw [@List.find?_cons_of_pos _ (fun c => nameMatches c.name seg) a t ha] at h
      obtain rfl : a = c := by simpa using h
      rw [updFirstChild, if_pos ha]
      simpa using hg
    · rw [@List.find?_cons_of_neg _ (fun c => nameMatches c.name seg) a t
        (by simpa using ha)] at h
      rw [updFirstChild, if_neg ha]
      simpa using ih c h hg

theorem appendIdAt_isSome {idv : Nat} :
    ∀ (p : List String) (t : CategoryNode),
      (findSeg t p).isSome → (appendIdAt idv p t).isSome := by
  intro p
  induction p with
  | nil => intro t _; simp [appendIdAt]
  | cons seg rest ih =>
    intro t hf
    rw [findSeg] at hf
    cases hfind : t.children.find? (fun c => nameMatches c.name seg) with
    | none => rw [hfind] at hf; simp at hf
    | some child =>
      rw [hfind] at hf
      rw [appendIdAt]
      simpa using updFirstChild_isSome t.children child hfind (ih child hf)

/-- `add_item` preserves the Sorted Index invariant. -/
theorem IndexInv_add_item {st : InventoryManager} (hInv : IndexInv st)
    (item : InventoryItem) : IndexInv (add_item st item).1 := by
  obtain ⟨hlen, hsort, hok, hpos⟩ := hInv
  unfold add_item
  cases hget : get_item_by_name st item.name with
  | error e => exact ⟨hlen, hsort, hok, hpos⟩
  | ok r =>
    cases r with
    | some it => exact ⟨hlen, hsort, hok, hpos⟩
    | none =>
      have hpair := get_item_none_pair hget
      have habs := binary_search_pair_none hsort hpair
      by_cases hguard : (pathTruthy item.category_path &&
          (find_category_node st item.category_path).isNone) = true
      · rw [if_pos hguard]
        exact ⟨hlen, hsort, hok, hpos⟩
      · rw [if_neg hguard]
        have htree : ∃ t1, (if pathTruthy item.category_path then
            appendIdAt item.id ((item.category_path).getD []) st.category_tree
          else some st.category_tree) = some t1 := by
          by_cases htr : pathTruthy item.category_path
          · rw [if_pos htr]
            have hfs : (findSeg st.category_tree ((item.category_path).getD [])).isSome := by
              have : ¬ (find_category_node st item.category_path).isNone = true := by
                intro hc
                exact hguard (by rw [htr, hc]; rfl)
              unfold find_category_node at this
              rw [if_pos htr] at this
              simpa [Option.isNone_iff_eq_none, Option.isSome_iff_ne_none] using this
            obtain ⟨t1, ht1⟩ := Option.isSome_iff_exists.mp (appendIdAt_isSome _ _ hfs)
            exact ⟨t1, ht1⟩
          · rw [if_neg htr]
            exact ⟨st.category_tree, rfl⟩
        obtain ⟨t1, ht1⟩ := htree
        rw [ht1]
        obtain ⟨L, hL, hLle, hLlt, hLgt⟩ :=
          binaryInsertionGo_point st.items_sorted (pyLower item.name) hsort habs
            (st.items_sorted.length + 1) 0 st.items_sorted.length le_rfl (by omega)
            (Nat.zero_le _) (fun j hj => absurd hj (Nat.not_lt_zero j))
            (fun j hj hj' => absurd (Nat.lt_of_le_of_lt hj hj') (lt_irrefl _))
        have hbi : binary_insertion st item.name = some L := hL
        rw [hbi]
        show IndexInv
          { items := st.items ++ [item]
            items_sorted := List.insertIdx (min L st.items_sorted.length)
              (item.name, (st.items ++ [item]).length - 1) st.items_sorted
            sorted_by := st.sorted_by
            category_tree := t1 }
        rw [Nat.min_eq_left hLle]
        have hone : (st.items ++ [item]).length - 1 = st.items.length := by simp
        rw [hone]
        have hlen1 : (st.items ++ [item]).length = st.items.length + 1 := by simp
        refine ⟨?_, ?_, ?_, ?_⟩
        · simp only [hlen1, List.length_insertIdx _ _ hLle, hlen]
        · refine pairwise_insertIdx st.items_sorted L _ hLle hsort ?_ ?_
          · intro j hj hjL
            have := hLlt j hjL
            rwa [keyAt, getE_eq_getElem _ hj] at this
          · intro j hj hjL
            have := hLgt j hjL hj
            rwa [keyAt, getE_eq_getElem _ hj] at this
        · intro e he
          rcases (List.mem_insertIdx hLle).mp he with rfl | hmem
          · refine ⟨by simp, ?_⟩
            rw [getE_append_last]
          · obtain ⟨he2, hename⟩ := hok e hmem
            refine ⟨by simp only [hlen1]; omega, ?_⟩
            rw [getE_append_left st.items item he2]
            exact hename
        · refine pairwise_insertIdx st.items_sorted L _ hLle hpos ?_ ?_
          · intro j hj hjL
            have hj2 := (hok _ (List.getElem_mem hj)).1
            intro hc
            rw [hc] at hj2
            omega
          · intro j hj hjL
            have hj2 := (hok _ (List.getElem_mem hj)).1
            intro hc
            rw [← hc] at hj2
            omega

/-- `remove_item` preserves the Sorted Index invariant (the not-found case
crashes before touching any state). -/
theorem IndexInv_remove_item {st : InventoryManager} (hInv : IndexInv st)
    (name : String) : IndexInv (remove_item st name).1 := by
  obtain ⟨hlen, hsort, hok, hpos⟩ := hInv
  unfold remove_item
  cases hbs : binary_search_pair st name with
  | error e => exact ⟨hlen, hsort, hok, hpos⟩
  | ok r =>
    cases r with
    | none => exact ⟨hlen, hsort, hok, hpos⟩
    | some pm =>
      obtain ⟨index, sidx⟩ := pm
      obtain ⟨hsidx, hkey, hpo⟩ := binary_search_pair_found hbs
      have hentry : getE st.items_sorted sidx = st.items_sorted[sidx] :=
        getE_eq_getElem _ hsidx
      have hmemS : st.items_sorted[sidx] ∈ st.items_sorted := List.getElem_mem hsidx
      have hidx : index < st.items.length := by
        have := (hok _ hmemS).1
        rw [← hentry, hpo] at this
        exact this
      show IndexInv
        ((if index < st.items.length then
            ({ items := st.items.eraseIdx index
               items_sorted := List.map (fun e => if index < e.2 then (e.1, e.2 - 1) else e)
                 (st.items_sorted.eraseIdx sidx)
               sorted_by := st.sorted_by
               category_tree := st.category_tree },
              Report.success)
          else (st, Report.crash) : InventoryManager × Report)).1
      rw [if_pos hidx]
      have hposat : (st.items_sorted[sidx]).2 = index := by rw [← hentry, hpo]
      have hposNe : ∀ i j (hi : i < st.items_sorted.length)
          (hj : j < st.items_sorted.length), i ≠ j →
          (st.items_sorted[i]).2 ≠ (st.items_sorted[j]).2 := by
        intro i j hi hj hij
        rcases Nat.lt_or_ge i j with hij' | hij'
        · exact List.pairwise_iff_getElem.mp hpos i j hi hj hij'
        · have : j < i := by omega
          exact (List.pairwise_iff_getElem.mp hpos j i hj hi this).symm
      have hlenE : (st.items_sorted.eraseIdx sidx).length =
          st.items_sorted.length - 1 := by
        rw [List.length_eraseIdx, if_pos hsidx]
      have hlenI : (st.items.eraseIdx index).length = st.items.length - 1 := by
        rw [List.length_eraseIdx, if_pos hidx]
      -- characterise each entry of the renumbered index
      have hsrc : ∀ j (hj : j < ((st.items_sorted.eraseIdx sidx).map
          (fun e => if index < e.2 then (e.1, e.2 - 1) else e)).length),
          ∃ j', ∃ _ : j' < st.items_sorted.length, j' ≠ sidx ∧
            ((st.items_sorted.eraseIdx sidx).map
              (fun e => if index < e.2 then (e.1, e.2 - 1) else e))[j] =
              (if index < (st.items_sorted[j']).2 then
                ((st.items_sorted[j']).1, (st.items_sorted[j']).2 - 1)
              else st.items_sorted[j']) ∧
            ((j < sidx → j' = j) ∧ (sidx ≤ j → j' = j + 1)) := by
        intro j hj
        have hj' : j < (st.items_sorted.eraseIdx sidx).length := by
          simpa using hj
        obtain ⟨j', hj'lt, hne, helem, hmono⟩ :=
          eraseIdx_elem_src st.items_sorted sidx j hsidx hj'
        refine ⟨j', hj'lt, hne, ?_, hmono⟩
        rw [List.getElem_map, helem]
      refine ⟨?_, ?_, ?_, ?_⟩
      · simp only [List.length_map, hlenE, hlenI, hlen]
      · refine List.Pairwise.map _ ?_
          (hsort.sublist (List.eraseIdx_sublist st.items_sorted sidx))
        intro a b hab
        by_cases ha : index < a.2 <;> by_cases hb : index < b.2 <;>
          simp [ha, hb] <;> exact hab
      · intro e' he'
        obtain ⟨j, hj, rfl⟩ := List.mem_iff_getElem.mp he'
        obtain ⟨j', hj'lt, hne, helem, _⟩ := hsrc j hj
        rw [helem]
        have hEok := hok _ (List.getElem_mem hj'lt)
        obtain ⟨hplt, hpname⟩ := hEok
        have hpne : (st.items_sorted[j']).2 ≠ index := by
          have := hposNe j' sidx hj'lt hsidx hne
          rwa [hposat] at this
        by_cases hcase : index < (st.items_sorted[j']).2
        · rw [if_pos hcase]
          have hb : (st.items_sorted[j']).2 - 1 < (st.items.eraseIdx index).length := by
            omega
          refine ⟨hb, ?_⟩
          rw [getE_eq_getElem _ hb, List.getElem_eraseIdx,
            dif_neg (by omega : ¬ (st.items_sorted[j']).2 - 1 < index)]
          have harith : (st.items_sorted[j']).2 - 1 + 1 = (st.items_sorted[j']).2 := by
            omega
          simp only [harith]
          rw [getE_eq_getElem _ hplt] at hpname
          exact hpname
        · rw [if_neg hcase]
          have hplt' : (st.items_sorted[j']).2 < index := by omega
          have hb : (st.items_sorted[j']).2 < (st.items.eraseIdx index).length := by
            omega
          refine ⟨hb, ?_⟩
          rw [getE_eq_getElem _ hb, List.getElem_eraseIdx, dif_pos hplt']
          rw [getE_eq_getElem _ hplt] at hpname
          exact hpname
      · rw [List.pairwise_iff_getElem]
        intro i j hi hj hij
        obtain ⟨i', hi'lt, hinei, helemi, hmonoi⟩ := hsrc i hi
        obtain ⟨j', hj'lt, hinej, helemj, hmonoj⟩ := hsrc j hj
        rw [helemi, helemj]
        have hij' : i' < j' := by
          rcases Nat.lt_or_ge i sidx with h1 | h1 <;>
            rcases Nat.lt_or_ge j sidx with h2 | h2 <;> omega
        have hne2 : (st.items_sorted[i']).2 ≠ (st.items_sorted[j']).2 :=
          hposNe i' j' hi'lt hj'lt (by omega)
        have hnei : (st.items_sorted[i']).2 ≠ index := by
          have := hposNe i' sidx hi'lt hsidx hinei
          rwa [hposat] at this
        have hnej : (st.items_sorted[j']).2 ≠ index := by
          have := hposNe j' sidx hj'lt hsidx hinej
          rwa [hposat] at this
        by_cases hci : index < (st.items_sorted[i']).2 <;>
          by_cases hcj : index < (st.items_sorted[j']).2 <;>
          simp [hci, hcj] <;> omega

/-- The mutations claim C1 quantifies over. -/
inductive StoreOp where
  | add (item : InventoryItem)
  | remove (name : String)

def applyStoreOp (st : InventoryManager) : StoreOp → InventoryManager
  | .add item => (add_item st item).1
  | .remove name => (remove_item st name).1

/-- Run a sequence of `add_item` / `remove_item` calls from the empty
manager. -/
def runStoreOps (ops : List StoreOp) : InventoryManager :=
  ops.foldl applyStoreOp emptyManager

theorem IndexInv_runStoreOps (ops : List StoreOp) : IndexInv (runStoreOps ops) := by
  suffices h : ∀ st, IndexInv st → IndexInv (ops.foldl applyStoreOp st) from
    h emptyManager IndexInv_emptyManager
  induction ops with
  | nil => intro st h; exact h
  | cons op rest ih =>
    intro st h
    refine ih _ ?_
    cases op with
    | add item => exact IndexInv_add_item h item
    | remove name => exact IndexInv_remove_item h name

theorem IndexInv_positions_complete {st : InventoryManager} (h : IndexInv st) :
    ∀ p, p < st.items.length → (st.items_sorted.map Prod.snd).count p = 1 := by
  obtain ⟨hlen, hsort, hok, hpos⟩ := h
  have hnodup : (st.items_sorted.map Prod.snd).Nodup := by
    rw [List.Nodup, List.pairwise_map]
    exact hpos
  intro p hp
  have hmem : p ∈ st.items_sorted.map Prod.snd := by
    refine mem_of_nodup_length hnodup ?_ (by simp [hlen]) p hp
    intro x hx
    obtain ⟨e, he, rfl⟩ := List.mem_map.mp hx
    exact (hok e he).1
  exact List.count_eq_one_of_mem hnodup hmem

/-- C1: for every sequence of `add_item`/`remove_item` operations starting
from an empty manager, after each operation the Sorted Index has the same
length as the Item Store, its entries are strictly sorted by case-insensitive
name, every stored position is a valid Item Store index whose item's name
matches the entry's name case-insensitively, and each valid position appears
exactly once.  (A state "after each operation" is `runStoreOps ops` for a
prefix `ops`, so quantifying over all `ops` covers every intermediate
state.) -/
theorem spec_c1_sorted_index_invariant (ops : List StoreOp) :
    (runStoreOps ops).items_sorted.length = (runStoreOps ops).items.length ∧
    List.Pairwise (fun a b : String × Nat => pyLower a.1 < pyLower b.1)
      (runStoreOps ops).items_sorted ∧
    (∀ e ∈ (runStoreOps ops).items_sorted,
      e.2 < (runStoreOps ops).items.length ∧
      pyLower (getE (runStoreOps ops).items e.2).name = pyLower e.1) ∧
    (∀ p, p < (runStoreOps ops).items.length →
      ((runStoreOps ops).items_sorted.map Prod.snd).count p = 1) := by
  have h := IndexInv_runStoreOps ops
  exact ⟨h.1, h.2.1, h.2.2.1, IndexInv_positions_complete h⟩

theorem getE_mem {α : Type _} [Inhabited α] (l : List α) {i : Nat}
    (h : i < l.length) : getE l i ∈ l := by
  rw [getE_eq_getElem _ h]
  exact List.getElem_mem h

theorem binary_search_eq_map {st : InventoryManager} {name : String} {r} 
    (hr : binary_search_pair st name = .ok r) :
    binary_search st name = .ok (r.map Prod.fst) := by
  unfold binary_search
  rw [hr]

/-- Under the index-store invariant, an item of the searched name exists
exactly when some Sorted Index entry carries that (lowered) name. -/
theorem IndexInv_name_present {st : InventoryManager} (h : IndexInv st)
    (name : String) :
    (∃ it ∈ st.items, pyLower it.name = pyLower name) ↔
    (∃ j, ∃ _ : j < st.items_sorted.length,
      keyAt st.items_sorted j = pyLower name) := by
  obtain ⟨hlen, hsort, hok, hpos⟩ := h
  constructor
  · rintro ⟨it, hit, hname⟩
    obtain ⟨p, hp, rfl⟩ := List.mem_iff_getElem.mp hit
    have hcnt := IndexInv_positions_complete ⟨hlen, hsort, hok, hpos⟩ p hp
    have hmem : p ∈ st.items_sorted.map Prod.snd := by
      rw [← List.count_pos_iff, hcnt]
      omega
    obtain ⟨e, he, hep⟩ := List.mem_map.mp hmem
    obtain ⟨j, hj, rfl⟩ := List.mem_iff_getElem.mp he
    refine ⟨j, hj, ?_⟩
    obtain ⟨hplt, hpname⟩ := hok _ (List.getElem_mem hj)
    rw [keyAt, getE_eq_getElem _ hj, ← hpname, hep, getE_eq_getElem _ hp]
    exact hname
  · rintro ⟨j, hj, hkey⟩
    obtain ⟨hplt, hpname⟩ := hok _ (List.getElem_mem hj)
    refine ⟨getE st.items (st.items_sorted[j]).2, ?_, ?_⟩
    · rw [getE_eq_getElem _ hplt]
      exact List.getElem_mem hplt
    · rw [hpname, ← getE_eq_getElem _ hj]
      exact hkey

/-- C10: under the index-store consistency invariant every lookup is total
and safe: `binary_search` never raises (always `.ok`), answers `-1` (`none`)
exactly when no item of that case-insensitive name exists, and a hit is an
in-range Item Store position holding an item of the searched name;
`get_item_by_name` likewise never raises and returns `None` exactly in the
absent case; on an empty inventory every lookup returns the not-found
signal. -/
theorem spec_c10_lookup_total_safe (st : InventoryManager) (name : String)
    (h : IndexInv st) :
    (∃ r, binary_search st name = .ok r) ∧
    (binary_search st name = .ok none ↔
      ∀ it ∈ st.items, pyLower it.name ≠ pyLower name) ∧
    (∀ pos, binary_search st name = .ok (some pos) →
      pos < st.items.length ∧ pyLower (getE st.items pos).name = pyLower name) ∧
    (∃ r, get_item_by_name st name = .ok r) ∧
    (get_item_by_name st name = .ok none ↔
      ∀ it ∈ st.items, pyLower it.name ≠ pyLower name) ∧
    (st.items = [] → binary_search st name = .ok none) := by
  obtain ⟨hlen, hsort, hok, hpos⟩ := h
  obtain ⟨r, hr⟩ := binary_search_pair_isOk st name
  have hbs := binary_search_eq_map hr
  have hfound : ∀ pos, binary_search st name = .ok (some pos) →
      pos < st.items.length ∧ pyLower (getE st.items pos).name = pyLower name := by
    intro pos hsome
    rw [hbs] at hsome
    cases r with
    | none => simp at hsome
    | some pm =>
      obtain ⟨pos', midx⟩ := pm
      simp only [Option.map_some'] at hsome
      obtain rfl : pos' = pos := by simpa using hsome
      obtain ⟨hmidx, hkey, hpo⟩ := binary_search_pair_found hr
      obtain ⟨hplt, hpname⟩ := hok _ (getE_mem st.items_sorted hmidx)
      rw [hpo] at hplt hpname
      exact ⟨hplt, by rw [hpname, ← hkey]⟩
  have hnoneiff : binary_search st name = .ok none ↔
      ∀ it ∈ st.items, pyLower it.name ≠ pyLower name := by
    constructor
    · intro hnone it hit hname
      rw [hbs] at hnone
      cases r with
      | some pm => obtain ⟨a, b⟩ := pm; simp at hnone
      | none =>
        have habs := binary_search_pair_none hsort hr
        have hpres := (IndexInv_name_present ⟨hlen, hsort, hok, hpos⟩ name).mp
          ⟨it, hit, hname⟩
        obtain ⟨j, hj, hkey⟩ := hpres
        exact habs j hj hkey
    · intro habs
      rw [hbs]
      cases r with
      | none => rfl
      | some pm =>
        exfalso
        obtain ⟨pos, midx⟩ := pm
        have := hfound pos (by rw [hbs]; rfl)
        exact habs _ (getE_mem st.items this.1) this.2
  have hget : ∃ rg, get_item_by_name st name = .ok rg := by
    unfold get_item_by_name
    rw [hbs]
    cases r with
    | none => exact ⟨none, rfl⟩
    | some pm =>
      obtain ⟨pos, midx⟩ := pm
      simp only [Option.map_some']
      have hplt := (hfound pos (by rw [hbs]; rfl)).1
      rw [get?_eq_some_getE st.items hplt]
      exact ⟨some (getE st.items pos), rfl⟩
  refine ⟨⟨r.map Prod.fst, hbs⟩, hnoneiff, hfound, hget, ?_, ?_⟩
  · constructor
    · intro hnone
      rw [← hnoneiff, hbs]
      unfold get_item_by_name at hnone
      rw [hbs] at hnone
      cases r with
      | none => rfl
      | some pm =>
        exfalso
        obtain ⟨pos, midx⟩ := pm
        simp only [Option.map_some'] at hnone
        have hplt := (hfound pos (by rw [hbs]; rfl)).1
        rw [get?_eq_some_getE st.items hplt] at hnone
        simp at hnone
    · intro habs
      have hn := hnoneiff.mpr habs
      unfold get_item_by_name
      rw [hn]
  · intro hempty
    rw [hnoneiff]
    intro it hit
    rw [hempty] at hit
    simp at hit

/-- Witness for C10 at a concrete input: the empty manager (which satisfies
the invariant) and the query `"x"`. -/
theorem spec_c10_witness :
    (∃ r, binary_search emptyManager "x" = .ok r) ∧
    (binary_search emptyManager "x" = .ok none ↔
      ∀ it ∈ emptyManager.items, pyLower it.name ≠ pyLower "x") ∧
    (∀ pos, binary_search emptyManager "x" = .ok (some pos) →
      pos < emptyManager.items.length ∧
      pyLower (getE emptyManager.items pos).name = pyLower "x") ∧
    (∃ r, get_item_by_name emptyManager "x" = .ok r) ∧
    (get_item_by_name emptyManager "x" = .ok none ↔
      ∀ it ∈ emptyManager.items, pyLower it.name ≠ pyLower "x") ∧
    (emptyManager.items = [] → binary_search emptyManager "x" = .ok none) :=
  spec_c10_lookup_total_safe emptyManager "x" IndexInv_emptyManager

/-! ### Concrete states used by the remaining claims -/

def itemA : InventoryItem :=
  { id := 0, name := "A", quantity := 5, price := 10, category_path := some [],
    date_added := 0 }

def itemB : InventoryItem :=
  { id := 1, name := "B", quantity := 2, price := 20, category_path := some [],
    date_added := 1 }

def itemC : InventoryItem :=
  { id := 2, name := "C", quantity := 8, price := 5, category_path := some [],
    date_added := 2 }

/-- Items `A`, `B`, `C` of the C5 scenario, added in that order. -/
def stABC : InventoryManager :=
  (add_item (add_item (add_item emptyManager itemA).1 itemB).1 itemC).1

/-- A manager with category `Food` and item `Apple` classified under it. -/
def stApple : InventoryManager :=
  (add_item (add_category emptyManager ["Food"]).1
    { id := 0, name := "Apple", quantity := 1, price := 1,
      category_path := some ["Food"], date_added := 0 }).1

/-- C2 (evidence): on a missing name, `remove_item` crashes — the tuple
unpacking of `binary_search`'s `-1` raises `TypeError` before the
`ItemNotFound` report is reachable — leaving the state untouched; on a
present name it removes the item, drops its Sorted Index entry and
decrements the stored positions greater than the removed position. -/
theorem spec_c2_remove_item_behaviour :
    remove_item emptyManager "x" = (emptyManager, Report.crash) ∧
    (remove_item stABC "A").2 = Report.success ∧
    (remove_item stABC "A").1.items.map (fun it => it.name) = ["B", "C"] ∧
    (remove_item stABC "A").1.items_sorted = [("B", 0), ("C", 1)] := by
  exact ⟨rfl, rfl, rfl, rfl⟩

/-- C3 (evidence): `edit_item` with *no* category argument (Python `None`) is
not "leave unchanged": it unlinks `Apple` from `Food`, sets its
`category_path` to `None`, appends it to the ROOT node's `items`
(`find_category_node(None)` returns the root) — and then crashes, because
the very next statement formats the change with `' > '.join(None)`
(`TypeError`), leaving those mutations behind; an *explicit empty path*
(`[]`) — the claimed "clear to uncategorized" input — skips the category
branch entirely, leaves the state unchanged and reports success. -/
theorem spec_c3_edit_category_behaviour :
    ((edit_item stApple "Apple" none none none).2 = Report.crash ∧
      (edit_item stApple "Apple" none none none).1.category_tree =
        .mk "ROOT" [.mk "Food" [] []] [0] ∧
      (edit_item stApple "Apple" none none none).1.items.map
        (fun it => it.category_path) = [none]) ∧
    ((edit_item stApple "Apple" none none (some [])).1 = stApple ∧
      (edit_item stApple "Apple" none none (some [])).2 = Report.success) := by
  exact ⟨⟨rfl, rfl, rfl⟩, rfl, rfl⟩

/-- C7 (evidence): a reachable state — `add_category(["Food"])`,
`add_item(Apple, path ["Food"])`, then `edit_item("Apple")` with no category
argument — leaves the item linked on the distinguished ROOT node, so the
root's `items` list is not empty. -/
theorem spec_c7_root_holds_item :
    (edit_item stApple "Apple" none none none).1.category_tree.items = [0] ∧
    stApple.category_tree.items = [] := by
  exact ⟨rfl, rfl⟩

/-- C4 counterexample: two failing operations that do not leave the state
unchanged.  `sort_inventory` with an invalid key reports `InvalidSortKey`
but overwrites the sort-key marker, and an `edit_item` whose category change
fails with `CategoryNotFound` still applies the requested quantity update. -/
theorem spec_c4_counterexample :
    ((sort_inventory emptyManager "bogus").2 = Report.invalidSortKey ∧
      (sort_inventory emptyManager "bogus").1.sorted_by = some "bogus" ∧
      emptyManager.sorted_by = none) ∧
    ((edit_item stApple "Apple" (some 5) none (some ["Nope"])).2 =
        Report.categoryNotFound ∧
      (edit_item stApple "Apple" (some 5) none (some ["Nope"])).1.items.map
        (fun it => it.quantity) = [5] ∧
      stApple.items.map (fun it => it.quantity) = [1]) := by
  exact ⟨⟨rfl, by decide, rfl⟩, rfl, rfl, rfl⟩


theorem applyQP_fields (item : InventoryItem) (q : Option Int) (pr : Option ℚ) :
    (applyPrice (applyQuantity item q) pr).id = item.id ∧
    (applyPrice (applyQuantity item q) pr).name = item.name ∧
    (applyPrice (applyQuantity item q) pr).category_path = item.category_path := by
  cases q with
  | none =>
    cases pr with
    | none => exact ⟨rfl, rfl, rfl⟩
    | some p' => by_cases hp : 0 ≤ p' <;> simp [applyQuantity, applyPrice, hp]
  | some q' =>
    cases pr with
    | none => by_cases hq : 0 ≤ q' <;> simp [applyQuantity, applyPrice, hq]
    | some p' =>
      by_cases hq : 0 ≤ q' <;> by_cases hp : 0 ≤ p' <;>
        simp [applyQuantity, applyPrice, hq, hp]

/-- C4 (amended): reported validation failures leave the Item Store, Sorted
Index and Category Tree unchanged — but not the whole state: a failed
`sort_inventory` has already overwritten the sort-key marker, a failed
category change in `edit_item` still applies the valid quantity/price
updates (writing back a field-modified copy of the looked-up item with the
same identity, name and category path), and `remove_item`'s not-found case
surfaces as an uncaught exception (with the state untouched) rather than a
report. -/
theorem spec_c4_failure_isolation :
    (∀ st it, (add_item st it).2 ≠ Report.success → (add_item st it).1 = st) ∧
    (∀ st nm, (remove_item st nm).2 ≠ Report.success → (remove_item st nm).1 = st) ∧
    (∀ st p, (add_category st p).2 ≠ Report.success → (add_category st p).1 = st) ∧
    (∀ st k, (sort_inventory st k).2 = Report.invalidSortKey →
      (sort_inventory st k).1 = { st with sorted_by := some (pyLowerStr k) }) ∧
    (∀ st nm q pr cp, (edit_item st nm q pr cp).2 = Report.itemNotFound →
      (edit_item st nm q pr cp).1 = st) ∧
    (∀ st nm q pr cp, (edit_item st nm q pr cp).2 = Report.categoryNotFound →
      (edit_item st nm q pr cp).1.items_sorted = st.items_sorted ∧
      (edit_item st nm q pr cp).1.category_tree = st.category_tree ∧
      (edit_item st nm q pr cp).1.sorted_by = st.sorted_by ∧
      ∃ it0 it2, get_item_by_name st nm = .ok (some it0) ∧
        it2.id = it0.id ∧ it2.name = it0.name ∧
        it2.category_path = it0.category_path ∧
        (edit_item st nm q pr cp).1.items = replaceItemById st.items it2) := by
  refine ⟨?_, ?_, ?_, ?_, ?_, ?_⟩
  · -- add_item: every failing branch returns the state unchanged
    intro st it
    unfold add_item
    cases hget : get_item_by_name st it.name with
    | error e => intro _; rfl
    | ok r =>
      cases r with
      | some x => intro _; rfl
      | none =>
        by_cases hguard : (pathTruthy it.category_path &&
            (find_category_node st it.category_path).isNone) = true
        · simp only [if_pos hguard]
          intro _; trivial
        · simp only [if_neg hguard]
          have htree : ∃ t1, (if pathTruthy it.category_path then
              appendIdAt it.id ((it.category_path).getD []) st.category_tree
            else some st.category_tree) = some t1 := by
            by_cases htr : pathTruthy it.category_path
            · rw [if_pos htr]
              have hfs : (findSeg st.category_tree ((it.category_path).getD [])).isSome := by
                have hni : ¬ (find_category_node st it.category_path).isNone = true := by
                  intro hc
                  exact hguard (by rw [htr, hc]; rfl)
                unfold find_category_node at hni
                rw [if_pos htr] at hni
                simpa [Option.isNone_iff_eq_none, Option.isSome_iff_ne_none] using hni
              exact Option.isSome_iff_exists.mp (appendIdAt_isSome _ _ hfs)
            · rw [if_neg htr]
              exact ⟨st.category_tree, rfl⟩
          obtain ⟨t1, ht1⟩ := htree
          rw [ht1]
          intro hfail
          exact absurd rfl hfail
  · -- remove_item
    intro st nm
    unfold remove_item
    cases hbs : binary_search_pair st nm with
    | error e => intro _; rfl
    | ok r =>
      cases r with
      | none => intro _; rfl
      | some pm =>
        obtain ⟨index, sidx⟩ := pm
        by_cases hidx : index < st.items.length
        · simp only [if_pos hidx]
          intro hfail
          exact absurd rfl hfail
        · simp only [if_neg hidx]
          intro _; trivial
  · -- add_category
    intro st p
    unfold add_category
    cases hlast : p.getLast? with
    | none => intro _; rfl
    | some nm =>
      cases hfind : findSeg st.category_tree p.dropLast with
      | none => intro _; rfl
      | some parent =>
        by_cases hdup : (parent.children.any fun c => nameMatches c.name nm) = true
        · simp only [if_pos hdup]
          intro _; trivial
        · simp only [if_neg hdup]
          cases hadd : addChildAt nm p.dropLast st.category_tree with
          | none => intro _; rfl
          | some t1 => intro hfail; exact absurd rfl hfail
  · -- sort_inventory: an invalid key only overwrites the marker
    intro st k
    unfold sort_inventory
    by_cases hval : pyLowerStr k ∉ validSortKeys
    · simp only [if_pos hval]
      intro _; trivial
    · simp only [if_neg hval]
      intro hfail
      exfalso
      by_cases hcat : (pyLowerStr k = "category" &&
          (st.items.any fun it => it.category_path.isNone) &&
          decide (2 ≤ st.items.length)) = true
      · simp only [if_pos hcat] at hfail
        simp at hfail
      · simp only [if_neg hcat] at hfail
        rcases hcr : (reset_sorted_list { st with
            sorted_by := some (pyLowerStr k)
            items := if pyLowerStr k = "name" then heap_sort nameKey st.items
              else if pyLowerStr k = "date" then heap_sort dateKey st.items
              else if pyLowerStr k = "quantity" then heap_sort quantityKey st.items
              else if pyLowerStr k = "price" then heap_sort priceKey st.items
              else heap_sort categoryKey st.items }).2 with _ | _
        · simp only [hcr] at hfail
          simp at hfail
        · simp only [hcr] at hfail
          simp at hfail
  · -- edit_item, item not found: state unchanged
    intro st nm q pr cp
    unfold edit_item
    cases hget : get_item_by_name st nm with
    | error e => intro hfail; simp at hfail
    | ok r =>
      cases r with
      | none => intro _; rfl
      | some item =>
        by_cases hne : cp ≠ some []
        · simp only [if_pos hne]
          by_cases hguard : (pathTruthy cp && (find_category_node st cp).isNone) = true
          · simp only [if_pos hguard]
            intro hfail; simp at hfail
          · simp only [if_neg hguard]
            cases ht1 : (if (applyPrice (applyQuantity item q) pr).category_path
                  ≠ some [] then
                removeIdAt item.id
                  (((applyPrice (applyQuantity item q) pr).category_path).getD [])
                  st.category_tree
              else some st.category_tree) with
            | none => intro hfail; simp at hfail
            | some t1 =>
              intro hfail
              cases ht2 : appendIdAt item.id (cp.getD []) t1 with
              | none => simp [ht2] at hfail
              | some t2 =>
                rcases cp with _ | l
                · simp [show appendIdAt item.id ([] : List String) t1 = some t2
                    from ht2] at hfail
                · simp [show appendIdAt item.id l t1 = some t2 from ht2] at hfail
        · simp only [if_neg hne]
          intro hfail; simp at hfail
  · -- edit_item, category not found: only quantity/price writes remain
    intro st nm q pr cp
    unfold edit_item
    cases hget : get_item_by_name st nm with
    | error e => intro hfail; simp at hfail
    | ok r =>
      cases r with
      | none => intro hfail; simp at hfail
      | some item =>
        by_cases hne : cp ≠ some []
        · simp only [if_pos hne]
          by_cases hguard : (pathTruthy cp && (find_category_node st cp).isNone) = true
          · simp only [if_pos hguard]
            intro _
            obtain ⟨hid, hname, hpath⟩ := applyQP_fields item q pr
            exact ⟨trivial, trivial, trivial, item, applyPrice (applyQuantity item q) pr,
              rfl, hid, hname, hpath, rfl⟩
          · simp only [if_neg hguard]
            cases ht1 : (if (applyPrice (applyQuantity item q) pr).category_path
                  ≠ some [] then
                removeIdAt item.id
                  (((applyPrice (applyQuantity item q) pr).category_path).getD [])
                  st.category_tree
              else some st.category_tree) with
            | none => intro hfail; simp at hfail
            | some t1 =>
              intro hfail
              cases ht2 : appendIdAt item.id (cp.getD []) t1 with
              | none => simp [ht2] at hfail
              | some t2 =>
                rcases cp with _ | l
                · simp [show appendIdAt item.id ([] : List String) t1 = some t2
                    from ht2] at hfail
                · simp [show appendIdAt item.id l t1 = some t2 from ht2] at hfail
        · simp only [if_neg hne]
          intro hfail; simp at hfail

/-- Witness for C4 (amended): the invalid-key `sort_inventory` clause applied
at the empty manager and key `"bogus"`. -/
theorem spec_c4_failure_isolation_witness :
    (sort_inventory emptyManager "bogus").1 =
      { emptyManager with sorted_by := some (pyLowerStr "bogus") } :=
  spec_c4_failure_isolation.2.2.2.1 emptyManager "bogus" rfl

theorem resetNamesGo_length : ∀ (ls : List (String × Nat)) (i : Nat),
    (resetNamesGo ls i).length = ls.length := by
  intro ls
  induction ls with
  | nil => intro i; rfl
  | cons e rest ih => intro i; simp [resetNamesGo, ih]

theorem resetNamesGo_snd : ∀ (ls : List (String × Nat)) (i : Nat),
    (resetNamesGo ls i).map Prod.snd = List.range' i ls.length := by
  intro ls
  induction ls with
  | nil => intro i; rfl
  | cons e rest ih => intro i; simp [resetNamesGo, ih, List.range'_succ]

/-- C8 (amended): `sort_inventory("name")` runs the fast resync path, which
rewrites the stored positions to `0..n-1` in index order, for every starting
state.  (The generic path does not agree with it in general — see the
counterexample.) -/
theorem spec_c8_name_resync (st : InventoryManager) :
    ((sort_inventory st "name").1).items_sorted.map Prod.snd =
      List.range (((sort_inventory st "name").1).items_sorted.length) := by
  have hred : ((sort_inventory st "name").1).items_sorted =
      resetNamesGo st.items_sorted 0 := rfl
  rw [hred, resetNamesGo_snd, resetNamesGo_length, List.range_eq_range']

/-- A consistent two-item manager (`B` then `A` added), used to separate the
two resync paths. -/
def stBA : InventoryManager :=
  (add_item (add_item emptyManager
    { id := 0, name := "B", quantity := 1, price := 1, category_path := some [],
      date_added := 0 }).1
    { id := 1, name := "A", quantity := 1, price := 2, category_path := some [],
      date_added := 1 }).1

/-- C8 counterexample: on a state whose Sorted Index is consistent with the
Item Store, after the heap sort by name the fast path (positions `0..n-1` in
index order) and the generic path (overwrite at the position `binary_search`
returned) produce different Sorted Indexes, so the two resync paths do not
agree. -/
theorem spec_c8_counterexample :
    IndexInv stBA ∧
    (sort_inventory stBA "name").1.items = heap_sort nameKey stBA.items ∧
    resetNamesGo stBA.items_sorted 0 ≠
      (resetGo (heap_sort nameKey stBA.items) 0 stBA.items_sorted).1 := by
  refine ⟨⟨rfl, ?_, ?_, ?_⟩, rfl, by decide⟩
  · show List.Pairwise (fun a b : String × Nat => pyLower a.1 < pyLower b.1)
      stBA.items_sorted
    decide
  · decide
  · decide

/-! ### Correctness of the heap sort -/

theorem getE_set_eq {α : Type _} [Inhabited α] (l : List α) {i : Nat} (v : α)
    (h : i < l.length) : getE (l.set i v) i = v := by
  rw [getE_eq_getElem _ (by simpa using h), List.getElem_set, if_pos rfl]

theorem getE_set_ne {α : Type _} [Inhabited α] (l : List α) {i k : Nat} (v : α)
    (h : i ≠ k) : getE (l.set i v) k = getE l k := by
  by_cases hk : k < l.length
  · rw [getE_eq_getElem _ (by simpa using hk), List.getElem_set, if_neg h,
      getE_eq_getElem _ hk]
  · unfold getE
    rw [List.getD_eq_default _ _ (by simpa using Nat.le_of_not_lt hk),
      List.getD_eq_default _ _ (Nat.le_of_not_lt hk)]

theorem length_listSwap {α : Type _} [Inhabited α] (l : List α) (i j : Nat) :
    (listSwap l i j).length = l.length := by
  simp [listSwap]

theorem getE_listSwap_fst {α : Type _} [Inhabited α] (l : List α) {i j : Nat}
    (hij : i ≠ j) (hi : i < l.length) : getE (listSwap l i j) i = getE l j := by
  unfold listSwap
  rw [getE_set_ne _ _ (fun h => hij h.symm), getE_set_eq _ _ hi]

theorem getE_listSwap_snd {α : Type _} [Inhabited α] (l : List α) {i j : Nat}
    (hj : j < l.length) : getE (listSwap l i j) j = getE l i := by
  unfold listSwap
  rw [getE_set_eq _ _ (by simpa using hj)]

theorem getE_listSwap_other {α : Type _} [Inhabited α] (l : List α) {i j k : Nat}
    (hik : k ≠ i) (hjk : k ≠ j) : getE (listSwap l i j) k = getE l k := by
  unfold listSwap
  rw [getE_set_ne _ _ (fun h => hjk h.symm), getE_set_ne _ _ (fun h => hik h.symm)]

theorem getE_cons_set_perm {α : Type _} [Inhabited α] :
    ∀ (t : List α) (m : Nat) (a : α), m < t.length →
      (getE t m :: t.set m a).Perm (a :: t) := by
  intro t
  induction t with
  | nil => intro m a h; simp at h
  | cons b s ih =>
    intro m a h
    cases m with
    | zero =>
      show (getE (b :: s) 0 :: a :: s).Perm (a :: b :: s)
      have : getE (b :: s) 0 = b := rfl
      rw [this]
      exact List.Perm.swap a b s
    | succ m =>
      have h' : m < s.length := by simpa using h
      have h1 : getE (b :: s) (m + 1) = getE s m := rfl
      show (getE (b :: s) (m + 1) :: b :: s.set m a).Perm (a :: b :: s)
      rw [h1]
      exact ((List.Perm.swap b (getE s m) (s.set m a)).trans
        ((ih m a h').cons b)).trans (List.Perm.swap a b s)

theorem set_set_perm {α : Type _} [Inhabited α] :
    ∀ (l : List α) (i j : Nat), i < l.length → j < l.length →
      ((l.set i (getE l j)).set j (getE l i)).Perm l := by
  intro l
  induction l with
  | nil => intro i j h _; simp at h
  | cons a t ih =>
    intro i j hi hj
    cases i with
    | zero =>
      cases j with
      | zero => simp [getE]
      | succ j =>
        have hj' : j < t.length := by simpa using hj
        have h0 : getE (a :: t) 0 = a := rfl
        have h1 : getE (a :: t) (j + 1) = getE t j := rfl
        show ((a :: t).set 0 (getE (a :: t) (j + 1))).set (j + 1)
          (getE (a :: t) 0) |>.Perm (a :: t)
        rw [h0, h1]
        show (getE t j :: t.set j a).Perm (a :: t)
        exact getE_cons_set_perm t j a hj'
    | succ i =>
      cases j with
      | zero =>
        have hi' : i < t.length := by simpa using hi
        have h0 : getE (a :: t) 0 = a := rfl
        have h1 : getE (a :: t) (i + 1) = getE t i := rfl
        show ((a :: t).set (i + 1) (getE (a :: t) 0)).set 0
          (getE (a :: t) (i + 1)) |>.Perm (a :: t)
        rw [h0, h1]
        show (getE t i :: t.set i a).Perm (a :: t)
        exact getE_cons_set_perm t i a hi'
      | succ j =>
        have hi' : i < t.length := by simpa using hi
        have hj' : j < t.length := by simpa using hj
        have h1 : getE (a :: t) (i + 1) = getE t i := rfl
        have h2 : getE (a :: t) (j + 1) = getE t j := rfl
        show ((a :: t).set (i + 1) (getE (a :: t) (j + 1))).set (j + 1)
          (getE (a :: t) (i + 1)) |>.Perm (a :: t)
        rw [h1, h2]
        show (a :: (t.set i (getE t j)).set j (getE t i)).Perm (a :: t)
        exact (ih i j hi' hj').cons a

theorem listSwap_perm {α : Type _} [Inhabited α] (l : List α) (i j : Nat)
    (hi : i < l.length) (hj : j < l.length) : (listSwap l i j).Perm l :=
  set_set_perm l i j hi hj

/-- The max-heap property at node `j` within the first `n` positions. -/
def heapAt {β α : Type _} [Inhabited β] [LinearOrder α] (f : β → α)
    (arr : List β) (n j : Nat) : Prop :=
  (2 * j + 1 < n → f (getE arr (2 * j + 1)) ≤ f (getE arr j)) ∧
  (2 * j + 2 < n → f (getE arr (2 * j + 2)) ≤ f (getE arr j))

/-- `j` lies in the binary-heap subtree rooted at `i` (parent of `j` is
`(j - 1) / 2`). -/
def isDesc (i : Nat) : Nat → Prop
  | j => if j ≤ i then j = i else isDesc i ((j - 1) / 2)
termination_by j => j
decreasing_by omega

theorem isDesc_self (i : Nat) : isDesc i i := by
  rw [isDesc]
  simp

theorem isDesc_le {i j : Nat} (h : isDesc i j) : i ≤ j := by
  rw [isDesc] at h
  split at h
  · omega
  · omega

theorem isDesc_step {i j : Nat} (h : i < j) :
    isDesc i j ↔ isDesc i ((j - 1) / 2) := by
  rw [isDesc]
  rw [if_neg (by omega)]

theorem isDesc_left {i j : Nat} (h : isDesc i j) : isDesc i (2 * j + 1) := by
  have hij := isDesc_le h
  rw [isDesc_step (by omega)]
  have : (2 * j + 1 - 1) / 2 = j := by omega
  rwa [this]

theorem isDesc_right {i j : Nat} (h : isDesc i j) : isDesc i (2 * j + 2) := by
  have hij := isDesc_le h
  rw [isDesc_step (by omega)]
  have : (2 * j + 2 - 1) / 2 = j := by omega
  rwa [this]

theorem isDesc_trans {i m : Nat} (him : isDesc i m) :
    ∀ j, isDesc m j → isDesc i j := by
  intro j
  induction j using Nat.strong_induction_on with
  | _ j ih =>
    intro hmj
    by_cases hjm : j = m
    · subst hjm; exact him
    · have hmle := isDesc_le hmj
      have hmlt : m < j := by omega
      have hp := (isDesc_step hmlt).mp hmj
      have hile : i ≤ m := isDesc_le him
      have := ih ((j - 1) / 2) (by omega) hp
      exact (isDesc_step (by omega)).mpr this

theorem isDesc_zero : ∀ j, isDesc 0 j := by
  intro j
  induction j using Nat.strong_induction_on with
  | _ j ih =>
    cases j with
    | zero => exact isDesc_self 0
    | succ j =>
      rw [isDesc_step (by omega)]
      exact ih _ (by omega)

theorem not_isDesc_of_lt {i j : Nat} (h : j < i) : ¬ isDesc i j :=
  fun hc => absurd (isDesc_le hc) (by omega)

/-- `j`'s parent relation: every positive index is the left or right child of
`(j - 1) / 2`. -/
theorem child_of_parent (j : Nat) (h : 1 ≤ j) :
    j = 2 * ((j - 1) / 2) + 1 ∨ j = 2 * ((j - 1) / 2) + 2 := by omega

/-- In a (partial) heap, every subtree value is bounded by its root. -/
theorem subtree_bound {β α : Type _} [Inhabited β] [LinearOrder α] (f : β → α)
    (arr : List β) (n k : Nat)
    (hheap : ∀ p, k ≤ p → p < n → heapAt f arr n p) :
    ∀ j, isDesc k j → j < n → f (getE arr j) ≤ f (getE arr k) := by
  intro j
  induction j using Nat.strong_induction_on with
  | _ j ih =>
    intro hdesc hjn
    by_cases hjk : j = k
    · subst hjk; exact le_refl _
    · have hkle := isDesc_le hdesc
      have hklt : k < j := by omega
      have hp := (isDesc_step hklt).mp hdesc
      have hple : k ≤ (j - 1) / 2 := isDesc_le hp
      have hplt : (j - 1) / 2 < j := by omega
      have hpn : (j - 1) / 2 < n := by omega
      have hheapp := hheap ((j - 1) / 2) hple hpn
      have hchild := child_of_parent j (by omega)
      have hstep : f (getE arr j) ≤ f (getE arr ((j - 1) / 2)) := by
        rcases hchild with hc | hc
        · have := hheapp.1 (by omega)
          rwa [← hc] at this
        · have := hheapp.2 (by omega)
          rwa [← hc] at this
      exact le_trans hstep (ih ((j - 1) / 2) hplt hp hpn)

/-- Case analysis on the `largest` selection of `heapify`: either it is `i`
itself and node `i` already satisfies the heap property, or it is an
in-range child carrying the maximum of `i` and its in-range children. -/
theorem heapifyLargest_cases {β α : Type _} [Inhabited β] [LinearOrder α]
    (f : β → α) (arr : List β) (n i : Nat) :
    (heapifyLargest f arr n i = i ∧
      (2 * i + 1 < n → f (getE arr (2 * i + 1)) ≤ f (getE arr i)) ∧
      (2 * i + 2 < n → f (getE arr (2 * i + 2)) ≤ f (getE arr i))) ∨
    ((heapifyLargest f arr n i = 2 * i + 1 ∨
        heapifyLargest f arr n i = 2 * i + 2) ∧
      heapifyLargest f arr n i < n ∧
      f (getE arr i) ≤ f (getE arr (heapifyLargest f arr n i)) ∧
      (2 * i + 1 < n →
        f (getE arr (2 * i + 1)) ≤ f (getE arr (heapifyLargest f arr n i))) ∧
      (2 * i + 2 < n →
        f (getE arr (2 * i + 2)) ≤ f (getE arr (heapifyLargest f arr n i)))) := by
  unfold heapifyLargest
  by_cases h1 : 2 * i + 1 < n ∧ f (getE arr (2 * i + 1)) > f (getE arr i)
  · simp only [if_pos h1]
    by_cases h2 : 2 * i + 2 < n ∧ f (getE arr (2 * i + 2)) > f (getE arr (2 * i + 1))
    · simp only [if_pos h2]
      right
      refine ⟨Or.inr trivial, h2.1, ?_, ?_, ?_⟩
      · exact le_of_lt (lt_trans h1.2 h2.2)
      · intro _; exact le_of_lt h2.2
      · intro _; exact le_refl _
    · simp only [if_neg h2]
      right
      refine ⟨Or.inl trivial, h1.1, le_of_lt h1.2, ?_, ?_⟩
      · intro _; exact le_refl _
      · intro hr
        rcases not_and_or.mp h2 with hc | hc
        · exact absurd hr hc
        · exact not_lt.mp hc
  · simp only [if_neg h1]
    by_cases h2 : 2 * i + 2 < n ∧ f (getE arr (2 * i + 2)) > f (getE arr i)
    · simp only [if_pos h2]
      right
      refine ⟨Or.inr trivial, h2.1, le_of_lt h2.2, ?_, ?_⟩
      · intro hl
        rcases not_and_or.mp h1 with hc | hc
        · exact absurd hl hc
        · exact le_of_lt (lt_of_le_of_lt (not_lt.mp hc) h2.2)
      · intro _; exact le_refl _
    · simp only [if_neg h2]
      left
      refine ⟨trivial, ?_, ?_⟩
      · intro hl
        rcases not_and_or.mp h1 with hc | hc
        · exact absurd hl hc
        · exact not_lt.mp hc
      · intro hr
        rcases not_and_or.mp h2 with hc | hc
        · exact absurd hr hc
        · exact not_lt.mp hc

/-- The sift-down specification: assuming the heap property everywhere below
`i` (exclusive), `heapify` (re)establishes it at every node from `i` on,
permutes the array, only changes positions inside the subtree of `i` below
`n`, and fills subtree positions with values drawn from that subtree. -/
theorem heapify_spec {β α : Type _} [Inhabited β] [LinearOrder α] (f : β → α)
    (n : Nat) :
    ∀ (fuel : Nat) (arr : List β) (i : Nat), n ≤ arr.length → n - i ≤ fuel →
      (∀ p, i < p → p < n → heapAt f arr n p) →
      (heapify f arr n fuel i).length = arr.length ∧
      (∀ j, ¬ (isDesc i j ∧ j < n) →
        getE (heapify f arr n fuel i) j = getE arr j) ∧
      (∀ j, isDesc i j → j < n → ∃ j', isDesc i j' ∧ j' < n ∧
        getE (heapify f arr n fuel i) j = getE arr j') ∧
      (∀ p, i ≤ p → p < n → heapAt f (heapify f arr n fuel i) n p) ∧
      (heapify f arr n fuel i).Perm arr := by
  intro fuel
  induction fuel with
  | zero =>
    intro arr i hn hfuel _
    refine ⟨rfl, fun j _ => rfl, fun j hd hj => ⟨j, hd, hj, rfl⟩, ?_,
      List.Perm.refl arr⟩
    intro p hip hpn
    exact absurd hpn (by omega)
  | succ fuel ih =>
    intro arr i hn hfuel H
    by_cases hM : heapifyLargest f arr n i ≠ i
    · rcases heapifyLargest_cases f arr n i with ⟨hMi, _, _⟩ |
        ⟨hchild, hMn, hfi, hfl, hfr⟩
      · exact absurd hMi hM
      · have hiM : i < heapifyLargest f arr n i := by
          rcases hchild with hc | hc <;> omega
        set M := heapifyLargest f arr n i with hMdef
        have hMlen : M < arr.length := by omega
        have hilen : i < arr.length := by omega
        have heq : heapify f arr n (fuel + 1) i =
            heapify f (listSwap arr i M) n fuel M := by
          rw [heapify, if_pos hM]
        set arr2 := listSwap arr i M with harr2
        have hlen2 : arr2.length = arr.length := length_listSwap arr i M
        have hA2i : getE arr2 i = getE arr M :=
          getE_listSwap_fst arr (by omega) hilen
        have hA2M : getE arr2 M = getE arr i := getE_listSwap_snd arr hMlen
        have hA2o : ∀ k, k ≠ i → k ≠ M → getE arr2 k = getE arr k :=
          fun k h1 h2 => getE_listSwap_other arr h1 h2
        have H2 : ∀ p, M < p → p < n → heapAt f arr2 n p := by
          intro p hMp hpn
          have hH := H p (by omega) hpn
          constructor
          · intro hc
            rw [hA2o (2 * p + 1) (by omega) (by omega), hA2o p (by omega) (by omega)]
            exact hH.1 hc
          · intro hc
            rw [hA2o (2 * p + 2) (by omega) (by omega), hA2o p (by omega) (by omega)]
            exact hH.2 hc
        obtain ⟨ihlen, ihb, ihc, ihd, ihperm⟩ :=
          ih arr2 M (by omega) (by omega) H2
        have hdM : isDesc i M := by
          rcases hchild with hc | hc
          · rw [hc]; exact isDesc_left (isDesc_self i)
          · rw [hc]; exact isDesc_right (isDesc_self i)
        have hbound : ∀ k, isDesc M k → k < n →
            f (getE arr2 k) ≤ f (getE arr M) := by
          intro k hdk hkn
          by_cases hkM : k = M
          · subst hkM; rw [hA2M]; exact hfi
          · have hkgt : M < k := lt_of_le_of_ne (isDesc_le hdk) (Ne.symm hkM)
            rw [hA2o k (by omega) (by omega)]
            exact subtree_bound f arr n M (fun p hp hpn => H p (by omega) hpn)
              k hdk hkn
        refine ⟨?_, ?_, ?_, ?_, ?_⟩
        · rw [heq, ihlen, hlen2]
        · intro j hnd
          rw [heq]
          have hndM : ¬ (isDesc M j ∧ j < n) := by
            intro hx
            exact hnd ⟨isDesc_trans hdM j hx.1, hx.2⟩
          rw [ihb j hndM]
          have hji : j ≠ i := by
            intro hc
            exact hnd (by rw [hc]; exact ⟨isDesc_self i, by omega⟩)
          have hjM : j ≠ M := by
            intro hc
            exact hnd (by rw [hc]; exact ⟨hdM, by omega⟩)
          exact hA2o j hji hjM
        · intro j hdj hjn
          rw [heq]
          by_cases hdMj : isDesc M j
          · obtain ⟨k, hdk, hkn, hk⟩ := ihc j hdMj hjn
            by_cases hkM : k = M
            · subst hkM
              exact ⟨i, isDesc_self i, by omega, by rw [hk, hA2M]⟩
            · have hkgt : M < k := lt_of_le_of_ne (isDesc_le hdk) (Ne.symm hkM)
              exact ⟨k, isDesc_trans hdM k hdk, hkn,
                by rw [hk, hA2o k (by omega) (by omega)]⟩
          · have hj' := ihb j (fun hc => hdMj hc.1)
            by_cases hji : j = i
            · subst hji
              exact ⟨M, hdM, by omega, by rw [hj', hA2i]⟩
            · have hjM : j ≠ M := by
                intro hc
                exact hdMj (hc ▸ isDesc_self M)
              exact ⟨j, hdj, hjn, by rw [hj', hA2o j hji hjM]⟩
        · intro p hip hpn
          rw [heq]
          rcases Nat.lt_or_ge p M with hpM | hpM
          · rcases Nat.eq_or_lt_of_le hip with hpi | hplt
            · subst hpi
              have hri : getE (heapify f arr2 n fuel M) i = getE arr M := by
                rw [ihb i (fun hc => absurd (isDesc_le hc.1) (by omega)), hA2i]
              constructor
              · intro hc
                by_cases hcM : 2 * i + 1 = M
                · obtain ⟨k, hdk, hkn, hk⟩ := ihc (2 * i + 1)
                    (by rw [hcM]; exact isDesc_self M) hc
                  rw [hri, hk]
                  exact hbound k hdk hkn
                · have hnotdesc : ¬ isDesc M (2 * i + 1) := by
                    intro hd
                    rcases hchild with hc1 | hc1
                    · exact hcM hc1.symm
                    · have hle := isDesc_le hd
                      omega
                  rw [hri, ihb (2 * i + 1) (fun hx => hnotdesc hx.1),
                    hA2o (2 * i + 1) (by omega) hcM]
                  exact hfl hc
              · intro hc
                by_cases hcM : 2 * i + 2 = M
                · obtain ⟨k, hdk, hkn, hk⟩ := ihc (2 * i + 2)
                    (by rw [hcM]; exact isDesc_self M) hc
                  rw [hri, hk]
                  exact hbound k hdk hkn
                · have hnotdesc : ¬ isDesc M (2 * i + 2) := by
                    intro hd
                    rcases hchild with hc1 | hc1
                    · have hstep := (isDesc_step (by omega : M < 2 * i + 2)).mp hd
                      have hpar : (2 * i + 2 - 1) / 2 = i := by omega
                      rw [hpar] at hstep
                      have := isDesc_le hstep
                      omega
                    · exact hcM hc1.symm
                  rw [hri, ihb (2 * i + 2) (fun hx => hnotdesc hx.1),
                    hA2o (2 * i + 2) (by omega) hcM]
                  exact hfr hc
            · have hH := H p hplt hpn
              have hchildnotdesc : ∀ c, (c = 2 * p + 1 ∨ c = 2 * p + 2) →
                  ¬ isDesc M c := by
                intro c hcc hd
                have hcM : M < c := by rcases hchild with h | h <;> omega
                have hpar := (isDesc_step hcM).mp hd
                have hparp : (c - 1) / 2 = p := by omega
                rw [hparp] at hpar
                exact not_isDesc_of_lt hpM hpar
              have hpnotdesc : ¬ isDesc M p := not_isDesc_of_lt hpM
              constructor
              · intro hc
                rw [ihb (2 * p + 1) (fun hx => hchildnotdesc _ (Or.inl rfl) hx.1),
                  ihb p (fun hx => hpnotdesc hx.1),
                  hA2o (2 * p + 1) (by omega) (by rcases hchild with h | h <;> omega),
                  hA2o p (by omega) (by omega)]
                exact hH.1 hc
              · intro hc
                rw [ihb (2 * p + 2) (fun hx => hchildnotdesc _ (Or.inr rfl) hx.1),
                  ihb p (fun hx => hpnotdesc hx.1),
                  hA2o (2 * p + 2) (by omega) (by rcases hchild with h | h <;> omega),
                  hA2o p (by omega) (by omega)]
                exact hH.2 hc
          · exact ihd p hpM hpn
        · rw [heq]
          exact ihperm.trans (listSwap_perm arr i M hilen hMlen)
    · have heq : heapify f arr n (fuel + 1) i = arr := by
        rw [heapify, if_neg hM]
      rcases heapifyLargest_cases f arr n i with ⟨_, hL, hR⟩ |
        ⟨hchild, _, _, _, _⟩
      · rw [heq]
        refine ⟨rfl, fun j _ => rfl, fun j hd hj => ⟨j, hd, hj, rfl⟩, ?_,
          List.Perm.refl arr⟩
        intro p hip hpn
        rcases Nat.eq_or_lt_of_le hip with hpi | hlt
        · subst hpi; exact ⟨hL, hR⟩
        · exact H p hlt hpn
      · push_neg at hM
        rcases hchild with hc | hc <;> omega

/-- The build phase turns the whole prefix of length `n` into a max-heap. -/
theorem heapSortBuild_spec {β α : Type _} [Inhabited β] [LinearOrder α]
    (f : β → α) (n : Nat) :
    ∀ (k : Nat) (arr : List β), n ≤ arr.length →
      (∀ p, k ≤ p → p < n → heapAt f arr n p) →
      (heapSortBuild f arr n k).length = arr.length ∧
      (∀ p, p < n → heapAt f (heapSortBuild f arr n k) n p) ∧
      (heapSortBuild f arr n k).Perm arr := by
  intro k
  induction k with
  | zero =>
    intro arr hn H
    exact ⟨rfl, fun p hp => H p (Nat.zero_le p) hp, List.Perm.refl arr⟩
  | succ k ih =>
    intro arr hn H
    have heq : heapSortBuild f arr n (k + 1) =
        heapSortBuild f (heapify f arr n n k) n k := rfl
    obtain ⟨hlen, _, _, hd, hperm⟩ := heapify_spec f n n arr k hn (by omega)
      (fun p hp hpn => H p (by omega) hpn)
    obtain ⟨ihlen, ihheap, ihperm⟩ := ih (heapify f arr n n k)
      (by rw [hlen]; exact hn) (fun p hp hpn => hd p hp hpn)
    rw [heq]
    exact ⟨ihlen.trans hlen, ihheap, ihperm.trans hperm⟩

theorem heap_root_max {β α : Type _} [Inhabited β] [LinearOrder α] (f : β → α)
    (arr : List β) (n : Nat) (hheap : ∀ p, p < n → heapAt f arr n p) :
    ∀ p, p < n → f (getE arr p) ≤ f (getE arr 0) :=
  fun p hp =>
    subtree_bound f arr n 0 (fun q _ hq => hheap q hq) p (isDesc_zero p) hp

/-- The extraction phase: starting from a heap of size `m + 1` whose values
are bounded by the already-sorted suffix, it sorts the whole array. -/
theorem heapSortExtract_spec {β α : Type _} [Inhabited β] [LinearOrder α]
    (f : β → α) (N : Nat) :
    ∀ (m : Nat) (arr : List β), arr.length = N → m < N →
      (∀ p, p < m + 1 → heapAt f arr (m + 1) p) →
      (∀ p q, p < m + 1 → m + 1 ≤ q → q < N →
        f (getE arr p) ≤ f (getE arr q)) →
      (∀ p q, m + 1 ≤ p → p ≤ q → q < N →
        f (getE arr p) ≤ f (getE arr q)) →
      (heapSortExtract f arr m).length = N ∧
      (∀ p q, p ≤ q → q < N →
        f (getE (heapSortExtract f arr m) p) ≤
        f (getE (heapSortExtract f arr m) q)) ∧
      (heapSortExtract f arr m).Perm arr := by
  intro m
  induction m with
  | zero =>
    intro arr hlen _ _ hbound htail
    refine ⟨hlen, ?_, List.Perm.refl arr⟩
    intro p q hpq hqN
    rcases Nat.eq_or_lt_of_le hpq with hpq' | hlt
    · exact le_of_eq (by rw [hpq'])
    · rcases Nat.eq_zero_or_pos p with hp0 | hp1
      · subst hp0
        exact hbound 0 q (by omega) (by omega) hqN
      · exact htail p q (by omega) hpq hqN
  | succ k ih =>
    intro arr hlen hmN hheap hbound htail
    have hk1 : k + 1 < arr.length := by omega
    have h0 : 0 < arr.length := by omega
    set arr2 := listSwap arr (k + 1) 0 with harr2
    have hlen2 : arr2.length = N := by rw [length_listSwap]; exact hlen
    have hA2last : getE arr2 (k + 1) = getE arr 0 :=
      getE_listSwap_fst arr (by omega) hk1
    have hA20 : getE arr2 0 = getE arr (k + 1) := getE_listSwap_snd arr h0
    have hA2o : ∀ j, j ≠ k + 1 → j ≠ 0 → getE arr2 j = getE arr j :=
      fun j h1 h2 => getE_listSwap_other arr h1 h2
    have hroot : ∀ p, p < k + 2 → f (getE arr p) ≤ f (getE arr 0) :=
      heap_root_max f arr (k + 2) hheap
    have H2 : ∀ p, 0 < p → p < k + 1 → heapAt f arr2 (k + 1) p := by
      intro p hp0 hpk
      have hH := hheap p (by omega)
      constructor
      · intro hc
        rw [hA2o (2 * p + 1) (by omega) (by omega), hA2o p (by omega) (by omega)]
        exact hH.1 (by omega)
      · intro hc
        rw [hA2o (2 * p + 2) (by omega) (by omega), hA2o p (by omega) (by omega)]
        exact hH.2 (by omega)
    obtain ⟨hhlen, hhb, hhc, hhd, hhperm⟩ := heapify_spec f (k + 1) (k + 1) arr2 0
      (by omega) (by omega) H2
    set arrH := heapify f arr2 (k + 1) (k + 1) 0 with harrH
    have heq : heapSortExtract f arr (k + 1) = heapSortExtract f arrH k := rfl
    have hHsuffix : ∀ q, k + 1 ≤ q → getE arrH q = getE arr2 q := by
      intro q hq
      exact hhb q (fun hx => absurd hx.2 (by omega))
    have hHbound : ∀ p, p < k + 1 → f (getE arrH p) ≤ f (getE arr 0) := by
      intro p hp
      obtain ⟨k', hdk', hk'n, hk'⟩ := hhc p (isDesc_zero p) hp
      rw [hk']
      by_cases h0' : k' = 0
      · subst h0'
        rw [hA20]
        exact hroot (k + 1) (by omega)
      · rw [hA2o k' (by omega) h0']
        exact hroot k' (by omega)
    have hbound' : ∀ p q, p < k + 1 → k + 1 ≤ q → q < N →
        f (getE arrH p) ≤ f (getE arrH q) := by
      intro p q hp hq hqN
      have h1 := hHbound p hp
      have h2 := hHsuffix q hq
      rcases Nat.eq_or_lt_of_le hq with hq1 | hq2
      · rw [h2, ← hq1, hA2last]
        exact h1
      · rw [h2, hA2o q (by omega) (by omega)]
        exact le_trans h1 (hbound 0 q (by omega) (by omega) hqN)
    have htail' : ∀ p q, k + 1 ≤ p → p ≤ q → q < N →
        f (getE arrH p) ≤ f (getE arrH q) := by
      intro p q hp hpq hqN
      rw [hHsuffix p hp, hHsuffix q (by omega)]
      rcases Nat.eq_or_lt_of_le hp with hp1 | hp2
      · rcases Nat.eq_or_lt_of_le hpq with hq1 | hq2
        · exact le_of_eq (by rw [hq1])
        · rw [← hp1, hA2last, hA2o q (by omega) (by omega)]
          exact hbound 0 q (by omega) (by omega) hqN
      · rw [hA2o p (by omega) (by omega), hA2o q (by omega) (by omega)]
        exact htail p q (by omega) hpq hqN
    obtain ⟨rlen, rsorted, rperm⟩ := ih arrH (by rw [hhlen, hlen2]) (by omega)
      (fun p hp => hhd p (Nat.zero_le p) hp) hbound' htail'
    rw [heq]
    exact ⟨rlen, rsorted,
      rperm.trans (hhperm.trans (listSwap_perm arr (k + 1) 0 hk1 h0))⟩

/-- `heap_sort` permutes its input into non-decreasing key order. -/
theorem heap_sort_spec {β α : Type _} [Inhabited β] [LinearOrder α] (f : β → α)
    (arr : List β) :
    (heap_sort f arr).Perm arr ∧
    (heap_sort f arr).Pairwise (fun a b => f a ≤ f b) := by
  rcases Nat.eq_zero_or_pos arr.length with h0 | hpos
  · have harr : arr = [] := List.length_eq_zero.mp h0
    subst harr
    have hs : heap_sort f ([] : List β) = [] := by
      simp [heap_sort, heapSortBuild, heapSortExtract]
    rw [hs]
    exact ⟨List.Perm.refl [], List.Pairwise.nil⟩
  · have hbuildpre : ∀ p, arr.length / 2 ≤ p → p < arr.length →
        heapAt f arr arr.length p := by
      intro p hp hpn
      exact ⟨fun hc => absurd hc (by omega), fun hc => absurd hc (by omega)⟩
    obtain ⟨blen, bheap, bperm⟩ := heapSortBuild_spec f arr.length
      (arr.length / 2) arr le_rfl hbuildpre
    have hm1 : arr.length - 1 + 1 = arr.length := by omega
    obtain ⟨elen, esorted, eperm⟩ := heapSortExtract_spec f arr.length
      (arr.length - 1) (heapSortBuild f arr arr.length (arr.length / 2)) blen
      (by omega)
      (fun p hp => by rw [hm1]; exact bheap p (by omega))
      (fun p q hp hq hqN => absurd hqN (by omega))
      (fun p q hp hpq hqN => absurd hqN (by omega))
    constructor
    · exact eperm.trans bperm
    · rw [List.pairwise_iff_getElem]
      intro a b ha hb hab
      have hblen : b < arr.length := by
        rw [← elen]
        exact hb
      have := esorted a b (le_of_lt hab) hblen
      rwa [getE_eq_getElem _ (by omega), getE_eq_getElem _ (by omega)] at this

/-- Both branches of `reset_sorted_list` only rewrite `items_sorted`; the
item store itself is untouched. -/
theorem reset_sorted_list_items (st : InventoryManager) :
    (reset_sorted_list st).1.items = st.items := by
  unfold reset_sorted_list
  by_cases h : st.sorted_by = some "name"
  · rw [if_pos h]
  · rw [if_neg h]

/-- On a valid key whose `'category'` crash guard does not fire,
`sort_inventory` replaces the item store with the heap sort of the old store
under the key's comparator. -/
theorem sort_inventory_items_of_valid (st : InventoryManager) (key : String)
    (hval : ¬ pyLowerStr key ∉ validSortKeys)
    (hcat : ¬ (pyLowerStr key = "category" &&
        (st.items.any fun it => it.category_path.isNone) &&
        decide (2 ≤ st.items.length)) = true) :
    (sort_inventory st key).1.items =
      (if pyLowerStr key = "name" then heap_sort nameKey st.items
       else if pyLowerStr key = "date" then heap_sort dateKey st.items
       else if pyLowerStr key = "quantity" then heap_sort quantityKey st.items
       else if pyLowerStr key = "price" then heap_sort priceKey st.items
       else heap_sort categoryKey st.items) := by
  unfold sort_inventory
  simp only [if_neg hval, if_neg hcat]
  exact reset_sorted_list_items _

/-- The comparator `sort_inventory` is supposed to order the item store by,
per (lower-cased) key. -/
def keyLE : String → InventoryItem → InventoryItem → Prop
  | "date" => fun a b => dateKey a ≤ dateKey b
  | "quantity" => fun a b => quantityKey a ≤ quantityKey b
  | "price" => fun a b => priceKey a ≤ priceKey b
  | "category" => fun a b => categoryKey a ≤ categoryKey b
  | _ => fun a b => nameKey a ≤ nameKey b

/-- C5: for every valid sort key (`name`, `date`, `quantity`, `price`,
`category` — for `category` assuming every item has an actual path, since a
`None` path makes the key function raise) `sort_inventory` permutes the item
store into non-decreasing order under that key's comparator; and in the
concrete scenario — A (qty 5, $10), B (qty 2, $20), C (qty 8, $5) added in
that order — `sort_inventory("price")` leaves the store in order C, A, B and
`binary_search("B")` then returns position 2. -/
theorem spec_c5_heap_sort_order :
    (∀ (st : InventoryManager) (key : String),
      pyLowerStr key ∈ validSortKeys →
      (pyLowerStr key = "category" → ∀ it ∈ st.items, (it.category_path).isSome) →
      ((sort_inventory st key).1.items.Perm st.items ∧
        (sort_inventory st key).1.items.Pairwise (keyLE (pyLowerStr key)))) ∧
    (sort_inventory stABC "price").1.items.map (fun it => it.name) =
      ["C", "A", "B"] ∧
    binary_search (sort_inventory stABC "price").1 "B" = .ok (some 2) := by
  refine ⟨?_, rfl, rfl⟩
  intro st key hmem hcat
  have hval : ¬ pyLowerStr key ∉ validSortKeys := fun h => h hmem
  have hcat' : ¬ (pyLowerStr key = "category" &&
      (st.items.any fun it => it.category_path.isNone) &&
      decide (2 ≤ st.items.length)) = true := by
    intro hc
    simp only [Bool.and_eq_true, List.any_eq_true, decide_eq_true_eq] at hc
    obtain ⟨⟨hk, it, hit, hnone⟩, _⟩ := hc
    have := hcat hk it hit
    simp [Option.isNone_iff_eq_none.mp hnone] at this
  rw [sort_inventory_items_of_valid st key hval hcat']
  have hcases : pyLowerStr key = "name" ∨ pyLowerStr key = "date" ∨
      pyLowerStr key = "quantity" ∨ pyLowerStr key = "price" ∨
      pyLowerStr key = "category" := by
    simpa [validSortKeys] using hmem
  rcases hcases with hk | hk | hk | hk | hk <;> rw [hk]
  · rw [if_pos rfl]
    exact heap_sort_spec nameKey st.items
  · rw [if_neg (by decide), if_pos rfl]
    exact heap_sort_spec dateKey st.items
  · rw [if_neg (by decide), if_neg (by decide), if_pos rfl]
    exact heap_sort_spec quantityKey st.items
  · rw [if_neg (by decide), if_neg (by decide), if_neg (by decide), if_pos rfl]
    exact heap_sort_spec priceKey st.items
  · rw [if_neg (by decide), if_neg (by decide), if_neg (by decide),
      if_neg (by decide)]
    exact heap_sort_spec categoryKey st.items

/-- C5 witness: the general part instantiated at the three-item scenario with
key `"price"`, every hypothesis discharged concretely. -/
theorem spec_c5_heap_sort_order_witness :
    pyLowerStr "price" ∈ validSortKeys ∧
    ((sort_inventory stABC "price").1.items.Perm stABC.items ∧
      (sort_inventory stABC "price").1.items.Pairwise
        (keyLE (pyLowerStr "price"))) :=
  ⟨by decide, spec_c5_heap_sort_order.1 stABC "price" (by decide)
    (fun h => absurd h (by decide))⟩

theorem treeSize_eq (n : CategoryNode) : treeSize n = 1 + forestSize n.children := by
  cases n
  rfl

theorem treeSize_pos (n : CategoryNode) : 0 < treeSize n := by
  cases n
  simp only [treeSize]
  omega

theorem forestSize_append (l₁ l₂ : List CategoryNode) :
    forestSize (l₁ ++ l₂) = forestSize l₁ + forestSize l₂ := by
  induction l₁ with
  | nil => simp [forestSize]
  | cons h t ih =>
    simp only [List.cons_append, forestSize, List.append_eq, ih]
    omega

/-- The items stored directly at the nodes of one level, in sibling order
(`level.flatMap items`). -/
def forestItems : List CategoryNode → List Nat
  | [] => []
  | h :: t => h.items ++ forestItems t

/-- The next level: all children of one level's nodes, in sibling order. -/
def forestChildren : List CategoryNode → List CategoryNode
  | [] => []
  | h :: t => h.children ++ forestChildren t

theorem forestSize_forestChildren (l : List CategoryNode) :
    forestSize (forestChildren l) + l.length = forestSize l := by
  induction l with
  | nil => rfl
  | cons h t ih =>
    simp only [forestChildren, forestSize_append, forestSize, List.length_cons,
      treeSize_eq]
    omega

/-- The sequence a FIFO breadth-first traversal emits when its queue holds
exactly the given nodes: pop the front node, emit its items, push its
children at the back. -/
def bfsFlat : List CategoryNode → List Nat
  | [] => []
  | h :: t => h.items ++ bfsFlat (t ++ h.children)
termination_by l => forestSize l
decreasing_by
  simp only [forestSize_append, forestSize, treeSize_eq]
  omega

/-- Level order as the spec describes it: all items of the current level in
sibling order, then the items of the next level, and so on.  Each level
strictly shrinks the remaining forest size, so that much fuel suffices. -/
def levelItemsGo : Nat → List CategoryNode → List Nat
  | _, [] => []
  | 0, _ :: _ => []
  | fuel + 1, h :: t =>
    forestItems (h :: t) ++ levelItemsGo fuel (forestChildren (h :: t))

/-- The level-order item sequence of the subtree rooted at `node`. -/
def levelOrderItems (node : CategoryNode) : List Nat :=
  levelItemsGo (treeSize node) [node]

theorem foldl_enqueue_elems (cs : List CategoryNode) (q : LinkedQueue CategoryNode) :
    (cs.foldl (fun qq c => qq.enqueue c) q).elems = q.elems ++ cs := by
  induction cs generalizing q with
  | nil => simp
  | cons c cs ih =>
    simp only [List.foldl_cons]
    rw [ih]
    simp [LinkedQueue.enqueue]

/-- Processing a prefix of the queue emits exactly that prefix's items and
moves its children to the back. -/
theorem bfsFlat_append (l₁ l₂ : List CategoryNode) :
    bfsFlat (l₁ ++ l₂) = forestItems l₁ ++ bfsFlat (l₂ ++ forestChildren l₁) := by
  induction l₁ generalizing l₂ with
  | nil => simp [forestItems, forestChildren]
  | cons h t ih =>
    simp only [List.cons_append, bfsFlat, forestItems, forestChildren]
    rw [List.append_assoc t l₂ h.children, ih (l₂ ++ h.children)]
    simp [List.append_assoc]

/-- One whole round of the FIFO traversal handles one whole level. -/
theorem bfsFlat_round (l : List CategoryNode) :
    bfsFlat l = forestItems l ++ bfsFlat (forestChildren l) := by
  have h := bfsFlat_append l []
  simpa using h

theorem bfsFlat_eq_levelItemsGo (fuel : Nat) :
    ∀ l : List CategoryNode, forestSize l ≤ fuel → bfsFlat l = levelItemsGo fuel l := by
  induction fuel with
  | zero =>
    intro l h
    cases l with
    | nil => simp [bfsFlat, levelItemsGo]
    | cons a t =>
      exfalso
      have := treeSize_pos a
      simp only [forestSize] at h
      omega
  | succ fuel ih =>
    intro l h
    cases l with
    | nil => simp [bfsFlat, levelItemsGo]
    | cons a t =>
      have hb : forestSize (forestChildren (a :: t)) ≤ fuel := by
        have hc := forestSize_forestChildren (a :: t)
        simp only [List.length_cons] at hc
        omega
      rw [bfsFlat_round (a :: t), ih (forestChildren (a :: t)) hb]
      rfl

/-- With enough fuel the breadth-first loop of `display_inventory` returns
the accumulated items followed by the FIFO flattening of the current node
and the queued nodes. -/
theorem displayGo_ok (fuel : Nat) :
    ∀ (cur : CategoryNode) (q : LinkedQueue CategoryNode) (acc : List Nat),
    treeSize cur + forestSize q.elems ≤ fuel →
    displayGo fuel cur q acc = .ok (acc ++ bfsFlat (cur :: q.elems)) := by
  induction fuel with
  | zero =>
    intro cur q acc h
    exfalso
    have := treeSize_pos cur
    omega
  | succ fuel ih =>
    intro cur q acc h
    have hq1 : (cur.children.foldl (fun qq c => qq.enqueue c) q).elems =
        q.elems ++ cur.children := foldl_enqueue_elems cur.children q
    cases hl : q.elems ++ cur.children with
    | nil =>
      obtain ⟨hqe, hch⟩ := List.append_eq_nil.mp hl
      simp [displayGo, LinkedQueue.is_empty, hq1, hqe, hch, bfsFlat]
    | cons next rest =>
      have hstep : displayGo (fuel + 1) cur q acc =
          displayGo fuel next ⟨rest⟩ (acc ++ cur.items) := by
        simp [displayGo, LinkedQueue.is_empty, LinkedQueue.dequeue, hq1, hl]
      have hb : treeSize next + forestSize rest ≤ fuel := by
        have h1 := forestSize_append q.elems cur.children
        rw [hl] at h1
        have h2 : forestSize (next :: rest) = treeSize next + forestSize rest := rfl
        have h3 := treeSize_eq cur
        omega
      have hr : bfsFlat (cur :: q.elems) =
          cur.items ++ bfsFlat (q.elems ++ cur.children) := by
        simp only [bfsFlat]
      rw [hstep, ih next ⟨rest⟩ (acc ++ cur.items) hb, hr, hl]
      simp [List.append_assoc]

/-- C6 (amended): with a non-empty filter path that *resolves*,
`display_inventory` collects exactly the items linked at the resolved
category node and all of its descendants, in breadth-first level order
(the start node's items first, then each level in sibling order); an empty
subtree yields the empty result normally.  But when the path does *not*
resolve, `find_category_node` returns `None` and the first
`current_node.items` access raises `AttributeError` — the call crashes
instead of reporting an empty result. -/
theorem spec_c6_display_breadth_first (st : InventoryManager)
    (path : List String) (hne : path ≠ []) :
    (∀ node, findSeg st.category_tree path = some node →
      display_inventory st (some path) = .ok (levelOrderItems node)) ∧
    (findSeg st.category_tree path = none →
      display_inventory st (some path) = .error ()) := by
  have htruthy : pathTruthy (some path) = true := by
    cases path with
    | nil => exact absurd rfl hne
    | cons a t => rfl
  constructor
  · intro node hfind
    have h1 : display_inventory st (some path) =
        displayGo (treeSize node) node LinkedQueue.empty [] := by
      unfold display_inventory
      rw [if_pos htruthy]
      have h2 : find_category_node st (some path) = some node := by
        unfold find_category_node
        rw [if_pos htruthy]
        exact hfind
      rw [h2]
    have hfuel : treeSize node + forestSize (LinkedQueue.empty :
        LinkedQueue CategoryNode).elems ≤ treeSize node := by
      simp [LinkedQueue.empty, forestSize]
    rw [h1, displayGo_ok (treeSize node) node LinkedQueue.empty [] hfuel,
      List.nil_append]
    have h3 : bfsFlat [node] = levelItemsGo (treeSize node) [node] := by
      refine bfsFlat_eq_levelItemsGo (treeSize node) [node] ?_
      simp [forestSize]
    have h4 : (LinkedQueue.empty : LinkedQueue CategoryNode).elems = [] := rfl
    rw [h4, h3]
    rfl
  · intro hfind
    unfold display_inventory
    rw [if_pos htruthy]
    have h2 : find_category_node st (some path) = none := by
      unfold find_category_node
      rw [if_pos htruthy]
      exact hfind
    rw [h2]

/-- C6 counterexample: on a path that does not resolve the claim says the
display reports an empty result and returns normally; the code instead
crashes (AttributeError on `None.items`). -/
theorem spec_c6_counterexample :
    display_inventory emptyManager (some ["X"]) = .error () := rfl

/-- A two-level category tree for the breadth-first witness: node `A` holds
item 0 and has children `B` (item 1) and `C` (item 2). -/
def bfsNodeB : CategoryNode := .mk "B" [] [1]

def bfsNodeC : CategoryNode := .mk "C" [] [2]

def bfsNodeA : CategoryNode := .mk "A" [bfsNodeB, bfsNodeC] [0]

def stBFS : InventoryManager :=
  { emptyManager with category_tree := .mk "ROOT" [bfsNodeA] [] }

/-- C6 witness: the amended theorem applied at a concrete two-level tree;
the displayed order is the level order `[0, 1, 2]`. -/
theorem spec_c6_display_breadth_first_witness :
    ((["A"] : List String) ≠ [] ∧
      findSeg stBFS.category_tree ["A"] = some bfsNodeA) ∧
    display_inventory stBFS (some ["A"]) = .ok (levelOrderItems bfsNodeA) ∧
    levelOrderItems bfsNodeA = [0, 1, 2] :=
  ⟨⟨by decide, rfl⟩,
    (spec_c6_display_breadth_first stBFS ["A"] (by decide)).1 bfsNodeA rfl, rfl⟩

theorem toDictForest_eq_map : ∀ cs : List CategoryNode,
    toDictForest cs = cs.map toDictTree := by
  intro cs
  induction cs with
  | nil => rfl
  | cons c t ih => simp only [toDictForest, List.map_cons, ih]

mutual
/-- `to_dict` inverts `from_dict`: the persisted dictionary is reproduced
exactly. -/
theorem toDictTree_fromDictTree (d : CatDict) :
    toDictTree (fromDictTree d) = d :=
  match d with
  | .mk n children => by
    simp only [fromDictTree, toDictTree, toDictForest_fromDictForest children]

theorem toDictForest_fromDictForest (ds : List CatDict) :
    toDictForest (fromDictForest ds) = ds :=
  match ds with
  | [] => rfl
  | d :: rest => by
    simp only [fromDictForest, toDictForest, toDictTree_fromDictTree d,
      toDictForest_fromDictForest rest]
end

/-- `find_category_node`'s child lookup only inspects names, so it commutes
with any change that preserves the dictionary shape of the children. -/
theorem find_shape :
    ∀ (cs₁ cs₂ : List CategoryNode) (seg : String),
    cs₁.map toDictTree = cs₂.map toDictTree →
    Option.map toDictTree (cs₁.find? fun c => nameMatches c.name seg) =
      Option.map toDictTree (cs₂.find? fun c => nameMatches c.name seg) := by
  intro cs₁
  induction cs₁ with
  | nil =>
    intro cs₂ seg h
    have h2 : cs₂ = [] := by
      cases cs₂ with
      | nil => rfl
      | cons a t => simp at h
    subst h2
    rfl
  | cons c₁ t₁ ih =>
    intro cs₂ seg h
    cases cs₂ with
    | nil => simp at h
    | cons c₂ t₂ =>
      simp only [List.map_cons, List.cons.injEq] at h
      obtain ⟨hc, ht⟩ := h
      have hname : c₁.name = c₂.name := by
        cases c₁ with
        | mk n₁ ch₁ it₁ =>
          cases c₂ with
          | mk n₂ ch₂ it₂ =>
            simp only [toDictTree, CatDict.mk.injEq] at hc
            simpa [CategoryNode.name] using hc.1
      by_cases hm : nameMatches c₁.name seg = true
      · rw [@List.find?_cons_of_pos _ (fun c => nameMatches c.name seg) c₁ t₁ hm,
          @List.find?_cons_of_pos _ (fun c => nameMatches c.name seg) c₂ t₂
            (by show nameMatches c₂.name seg = true; rw [← hname]; exact hm)]
        simpa using hc
      · rw [@List.find?_cons_of_neg _ (fun c => nameMatches c.name seg) c₁ t₁
            (by simpa using hm),
          @List.find?_cons_of_neg _ (fun c => nameMatches c.name seg) c₂ t₂
            (by show ¬ nameMatches c₂.name seg = true
                rw [← hname]
                simpa using hm)]
        exact ih t₂ seg ht

/-- Whether a path resolves depends only on the dictionary shape of the
tree. -/
theorem findSeg_shape :
    ∀ (p : List String) (t₁ t₂ : CategoryNode),
    toDictTree t₁ = toDictTree t₂ →
    (findSeg t₁ p).isSome = (findSeg t₂ p).isSome := by
  intro p
  induction p with
  | nil => intro t₁ t₂ _; rfl
  | cons seg rest ih =>
    intro t₁ t₂ h
    have hch : t₁.children.map toDictTree = t₂.children.map toDictTree := by
      cases t₁ with
      | mk n₁ ch₁ it₁ =>
        cases t₂ with
        | mk n₂ ch₂ it₂ =>
          simp only [toDictTree, CatDict.mk.injEq] at h
          simpa [CategoryNode.children, ← toDictForest_eq_map] using h.2
    have hf := find_shape t₁.children t₂.children seg hch
    cases h₁ : t₁.children.find? (fun c => nameMatches c.name seg) with
    | none =>
      cases h₂ : t₂.children.find? (fun c => nameMatches c.name seg) with
      | none => simp only [findSeg, h₁, h₂]
      | some c₂ => rw [h₁, h₂] at hf; simp at hf
    | some c₁ =>
      cases h₂ : t₂.children.find? (fun c => nameMatches c.name seg) with
      | none => rw [h₁, h₂] at hf; simp at hf
      | some c₂ =>
        rw [h₁, h₂] at hf
        simp only [findSeg, h₁, h₂]
        exact ih c₁ c₂ (by simpa using hf)

/-- `updFirstChild` with a shape-preserving update preserves the shape of
the child list. -/
theorem updFirstChild_shape (seg : String) (g : CategoryNode → Option CategoryNode)
    (hg : ∀ c c', g c = some c' → toDictTree c' = toDictTree c) :
    ∀ (cs cs' : List CategoryNode), updFirstChild seg g cs = some cs' →
    cs'.map toDictTree = cs.map toDictTree := by
  intro cs
  induction cs with
  | nil => intro cs' h; simp [updFirstChild] at h
  | cons c t ih =>
    intro cs' h
    by_cases hm : nameMatches c.name seg = true
    · rw [updFirstChild, if_pos hm] at h
      cases hgc : g c with
      | none => rw [hgc] at h; simp at h
      | some c' =>
        rw [hgc] at h
        obtain rfl : c' :: t = cs' := by simpa using h
        simp [hg c c' hgc]
    · rw [updFirstChild, if_neg hm] at h
      cases hu : updFirstChild seg g t with
      | none => rw [hu] at h; simp at h
      | some t' =>
        rw [hu] at h
        obtain rfl : c :: t' = cs' := by simpa using h
        simp [ih t' hu]

/-- Linking an item id into the node at `p` does not change the dictionary
shape of the tree. -/
theorem appendIdAt_shape (idv : Nat) :
    ∀ (p : List String) (t t' : CategoryNode), appendIdAt idv p t = some t' →
    toDictTree t' = toDictTree t := by
  intro p
  induction p with
  | nil =>
    intro t t' h
    simp only [appendIdAt] at h
    obtain rfl : CategoryNode.mk t.name t.children (t.items ++ [idv]) = t' := by
      simpa using h
    cases t with
    | mk n ch it => rfl
  | cons seg rest ih =>
    intro t t' h
    simp only [appendIdAt] at h
    cases hu : updFirstChild seg (appendIdAt idv rest) t.children with
    | none => rw [hu] at h; simp at h
    | some cs' =>
      rw [hu] at h
      obtain rfl : CategoryNode.mk t.name cs' t.items = t' := by simpa using h
      have hcs := updFirstChild_shape seg (appendIdAt idv rest)
        (fun c c' hc => ih c c' hc) t.children cs' hu
      cases t with
      | mk n ch it =>
        simp only [toDictTree, CatDict.mk.injEq]
        refine ⟨rfl, ?_⟩
        rw [toDictForest_eq_map, toDictForest_eq_map]
        simpa [CategoryNode.children] using hcs

/-- The items `load_inventory`'s loop constructs from the saved dictionaries,
ids assigned from `index` in load order. -/
def buildItems : List SavedItem → Nat → List InventoryItem
  | [], _ => []
  | d :: rest, index =>
    { id := index, name := d.name, quantity := d.quantity, price := d.price,
      category_path := d.category_path, date_added := d.date_added } ::
      buildItems rest (index + 1)

/-- The persisted fields of an item. -/
def itemFields (it : InventoryItem) :
    String × Int × ℚ × Option (List String) × Nat :=
  (it.name, it.quantity, it.price, it.category_path, it.date_added)

theorem buildItems_map : ∀ (its : List InventoryItem) (index : Nat),
    (buildItems (its.map itemToDict) index).map itemFields =
      its.map itemFields := by
  intro its
  induction its with
  | nil => intro index; rfl
  | cons it rest ih =>
    intro index
    simp only [List.map_cons, buildItems]
    rw [ih (index + 1)]
    rfl

/-- The load loop, run on saved items that pass the constructor's checks and
whose truthy paths all resolve in the current tree, succeeds, appends
exactly the rebuilt items in order, and never changes the tree's dictionary
shape. -/
theorem loadItemsGo_spec :
    ∀ (ds : List SavedItem) (index : Nat) (st : InventoryManager),
    (∀ d ∈ ds, d.name ≠ "" ∧ 0 ≤ d.quantity ∧ 0 ≤ d.price) →
    (∀ d ∈ ds, pathTruthy d.category_path = true →
      (findSeg st.category_tree (d.category_path.getD [])).isSome = true) →
    (loadItemsGo ds index st).2 = true ∧
    (loadItemsGo ds index st).1.items = st.items ++ buildItems ds index ∧
    toDictTree (loadItemsGo ds index st).1.category_tree =
      toDictTree st.category_tree := by
  intro ds
  induction ds with
  | nil =>
    intro index st _ _
    exact ⟨rfl, by simp [loadItemsGo, buildItems], rfl⟩
  | cons d rest ih =>
    intro index st hv hp
    have hvd := hv d (List.mem_cons_self d rest)
    have hguard : ¬ ((d.name = "" || d.quantity < 0 || d.price < 0) = true) := by
      simp only [Bool.or_eq_true, decide_eq_true_eq]
      push_neg
      exact ⟨⟨hvd.1, hvd.2.1⟩, hvd.2.2⟩
    simp only [loadItemsGo]
    rw [if_neg hguard]
    by_cases hpt : pathTruthy d.category_path = true
    · rw [if_pos hpt]
      have hres := hp d (List.mem_cons_self d rest) hpt
      obtain ⟨tree1, htree⟩ := Option.isSome_iff_exists.mp
        (appendIdAt_isSome (d.category_path.getD []) st.category_tree
          (by simpa using hres))
      rw [htree]
      have hshape : toDictTree tree1 = toDictTree st.category_tree :=
        appendIdAt_shape index (d.category_path.getD []) st.category_tree
          tree1 htree
      have hv' : ∀ d' ∈ rest, d'.name ≠ "" ∧ 0 ≤ d'.quantity ∧ 0 ≤ d'.price :=
        fun d' hd' => hv d' (List.mem_cons_of_mem d hd')
      have hp' : ∀ d' ∈ rest, pathTruthy d'.category_path = true →
          (findSeg tree1 (d'.category_path.getD [])).isSome = true := by
        intro d' hd' hptd
        rw [findSeg_shape (d'.category_path.getD []) tree1 st.category_tree hshape]
        exact hp d' (List.mem_cons_of_mem d hd') hptd
      obtain ⟨hflag, hitems, htdt⟩ := ih (index + 1)
        { items := st.items ++
            [{ id := index
               name := d.name
               quantity := d.quantity
               price := d.price
               category_path := d.category_path
               date_added := d.date_added }]
          items_sorted := (match binary_insertion st d.name with
            | some k => List.insertIdx (min k st.items_sorted.length)
                (d.name, index) st.items_sorted
            | none => List.insertIdx (st.items_sorted.length - 1)
                (d.name, index) st.items_sorted)
          sorted_by := st.sorted_by
          category_tree := tree1 } hv' hp'
      refine ⟨hflag, hitems.trans ?_, htdt.trans hshape⟩
      simp [buildItems, List.append_assoc]
    · rw [if_neg hpt]
      have hv' : ∀ d' ∈ rest, d'.name ≠ "" ∧ 0 ≤ d'.quantity ∧ 0 ≤ d'.price :=
        fun d' hd' => hv d' (List.mem_cons_of_mem d hd')
      have hp' : ∀ d' ∈ rest, pathTruthy d'.category_path = true →
          (findSeg st.category_tree (d'.category_path.getD [])).isSome = true :=
        fun d' hd' hptd => hp d' (List.mem_cons_of_mem d hd') hptd
      obtain ⟨hflag, hitems, htdt⟩ := ih (index + 1)
        { items := st.items ++
            [{ id := index
               name := d.name
               quantity := d.quantity
               price := d.price
               category_path := d.category_path
               date_added := d.date_added }]
          items_sorted := (match binary_insertion st d.name with
            | some k => List.insertIdx (min k st.items_sorted.length)
                (d.name, index) st.items_sorted
            | none => List.insertIdx (st.items_sorted.length - 1)
                (d.name, index) st.items_sorted)
          sorted_by := st.sorted_by
          category_tree := st.category_tree } hv' hp'
      refine ⟨hflag, hitems.trans ?_, htdt⟩
      simp [buildItems, List.append_assoc]

/-- C9: saving and loading into a fresh manager reproduces the item store —
same names, quantities, prices, category paths and timestamps, in the same
order — and a category tree of identical dictionary shape (same names and
child order at every node).  The hypotheses record what the source
guarantees for states built through the `InventoryItem` constructor: names
are non-empty, quantities and prices non-negative, and every item's truthy
category path resolves in the tree (otherwise the constructor's
`ValueError`, or the `AttributeError` from linking a dangling path, ends
the load early via the blanket `except`). -/
theorem spec_c9_round_trip (st : InventoryManager)
    (hvalid : ∀ it ∈ st.items, it.name ≠ "" ∧ 0 ≤ it.quantity ∧ 0 ≤ it.price)
    (hpaths : ∀ it ∈ st.items, pathTruthy it.category_path = true →
      (findSeg st.category_tree (it.category_path.getD [])).isSome = true) :
    (load_inventory emptyManager (save_inventory st)).2 = true ∧
    (load_inventory emptyManager (save_inventory st)).1.items.map itemFields =
      st.items.map itemFields ∧
    toDictTree (load_inventory emptyManager (save_inventory st)).1.category_tree =
      toDictTree st.category_tree := by
  have hv' : ∀ d ∈ st.items.map itemToDict,
      d.name ≠ "" ∧ 0 ≤ d.quantity ∧ 0 ≤ d.price := by
    intro d hd
    obtain ⟨it, hit, rfl⟩ := List.mem_map.mp hd
    exact hvalid it hit
  have hp' : ∀ d ∈ st.items.map itemToDict, pathTruthy d.category_path = true →
      (findSeg (fromDictTree (toDictTree st.category_tree))
        (d.category_path.getD [])).isSome = true := by
    intro d hd hpt
    obtain ⟨it, hit, rfl⟩ := List.mem_map.mp hd
    rw [findSeg_shape _ _ st.category_tree (toDictTree_fromDictTree _)]
    exact hpaths it hit hpt
  obtain ⟨hflag, hitems, htree⟩ := loadItemsGo_spec (st.items.map itemToDict) 0
    { items := []
      items_sorted := []
      sorted_by := none
      category_tree := fromDictTree (toDictTree st.category_tree) } hv' hp'
  refine ⟨hflag, ?_, htree.trans (toDictTree_fromDictTree _)⟩
  have h2 : (load_inventory emptyManager (save_inventory st)).1.items =
      buildItems (st.items.map itemToDict) 0 := by
    simpa using hitems
  rw [h2, buildItems_map]

/-- C9 witness: the round trip applied to the concrete manager with category
`Food` and item `Apple` classified under it. -/
theorem spec_c9_round_trip_witness :
    ((∀ it ∈ stApple.items, it.name ≠ "" ∧ 0 ≤ it.quantity ∧ 0 ≤ it.price) ∧
      (∀ it ∈ stApple.items, pathTruthy it.category_path = true →
        (findSeg stApple.category_tree (it.category_path.getD [])).isSome =
          true)) ∧
    ((load_inventory emptyManager (save_inventory stApple)).2 = true ∧
      (load_inventory emptyManager (save_inventory stApple)).1.items.map
          itemFields =
        stApple.items.map itemFields ∧
      toDictTree (load_inventory emptyManager
          (save_inventory stApple)).1.category_tree =
        toDictTree stApple.category_tree) :=
  ⟨⟨by decide, by decide⟩, spec_c9_round_trip stApple (by decide) (by decide)⟩
